import Mathlib

/-!
Verification development for the bronze/silver ETL pipeline of this repository
(`src/datareference/import_json.py` and `src/datareference/bronze_to_silver.py`).

Python strings are modelled as `List Char` (abbreviated `Str`); Python `str`
operations (`split`, `replace`, slicing, `upper`, `lower`, `in`, `join`,
`sorted`) are modelled by the corresponding executable functions below.
The `md5` digest from the standard library is modelled by the identity on its
input string (an injective fingerprint): the pipeline only ever compares
digests for equality, so fingerprint equality is modelled as equality of the
hashed payload.
-/

set_option linter.unusedVariables false

abbrev Str : Type := List Char

/-- A Lean string literal, as the `Str` model of a Python string. -/
def pstr (s : String) : Str := s.data

/-- Python `str.upper()` (the identifiers involved are ASCII). -/
def upperStr (s : Str) : Str := s.map Char.toUpper

/-- Python `str.lower()` (the identifiers involved are ASCII). -/
def lowerStr (s : Str) : Str := s.map Char.toLower

/-- `startsWithStr pat s` : does `s` start with `pat`? -/
def startsWithStr : Str → Str → Bool
  | [], _ => true
  | _ :: _, [] => false
  | a :: as, b :: bs => a = b && startsWithStr as bs

/-- Python substring test `pat in s`. -/
def containsStr : Str → Str → Bool
  | [], pat => startsWithStr pat []
  | c :: rest, pat => startsWithStr pat (c :: rest) || containsStr rest pat

/-- Python `s.split(sep)` for a one-character separator
(always returns at least one segment). -/
def splitOnChar (sep : Char) : Str → List Str
  | [] => [[]]
  | c :: rest =>
    let r := splitOnChar sep rest
    if c = sep then [] :: r
    else
      match r with
      | [] => [[c]]
      | seg :: segs => (c :: seg) :: segs

/-- Fuel-driven core of Python `s.replace(old, new)` (left-to-right,
non-overlapping); the fuel is `s.length`, which suffices for non-empty `old`. -/
def replaceAllGo : Nat → Str → Str → Str → Str
  | 0, s, _, _ => s
  | fuel + 1, s, old, new =>
    match s with
    | [] => []
    | c :: rest =>
      if startsWithStr old s && !old.isEmpty then
        new ++ replaceAllGo fuel (s.drop old.length) old new
      else c :: replaceAllGo fuel rest old new

/-- Python `s.replace(old, new)` (used with a non-empty `old`). -/
def replaceAll (s old new : Str) : Str := replaceAllGo s.length s old new

/-!
## Identifier Sanitizer (`import_json.sanitize_name`)
-/

/-- The fixed reserved-word set of `sanitize_name`. -/
def reservedWords : List Str :=
  ([ "all", "analyse", "analyze", "and", "any", "array", "as", "asc",
  "asymmetric", "authorization", "between", "binary", "both", "case",
  "cast", "check", "collate", "column", "constraint", "create", "cross",
  "current_catalog", "current_date", "current_role", "current_schema",
  "current_time", "current_timestamp", "current_user", "default",
  "deferrable", "desc", "distinct", "do", "else", "end", "except",
  "false", "fetch", "for", "foreign", "freeze", "from", "full", "grant",
  "group", "having", "ilike", "in", "initially", "inner", "intersect",
  "into", "is", "isnull", "join", "lateral", "leading", "left", "like",
  "limit", "localtime", "localtimestamp", "natural", "not", "notnull",
  "null", "offset", "on", "only", "or", "order", "outer", "over",
  "overlaps", "placing", "primary", "references", "returning", "right",
  "select", "session_user", "similar", "some", "symmetric", "table",
  "then", "to", "trailing", "true", "union", "unique", "user", "using",
  "variadic", "verbose", "when", "where", "window", "with" ] :
  List String).map String.data

/-- `import_json.sanitize_name`: non-alphanumeric characters become `_`;
an empty result becomes `c_empty`; a leading digit or a reserved word gets a
`c_` marker in front; the result is lower-cased.
(Python's Unicode-aware `isalnum` is modelled by `Char.isAlphanum`; all
identifiers handled by the pipeline are ASCII.) -/
def sanitize_name (name : Str) : Str :=
  let n1 : Str := name.map (fun c => if c.isAlphanum then c else '_')
  let n2 : Str :=
    if n1 = [] then pstr "c_empty"
    else if (match n1 with
             | c :: _ => c.isDigit
             | [] => false) || reservedWords.contains (lowerStr n1) then
      'c' :: '_' :: n1
    else n1
  lowerStr n2

/-!
## Column-Type Reconciler (`bronze_to_silver.collect_all_columns_from_tables`)

The accumulator `all_columns` is a Python dict (insertion-ordered,
value-overwriting), modelled as an association list.
-/

abbrev ColMap := List (Str × Str)

/-- Python dict value lookup `all_columns[col_name]` (as an option). -/
def colFind (m : ColMap) (k : Str) : Option Str :=
  (m.find? (fun p => p.1 == k)).map (fun p => p.2)

/-- Python dict assignment `all_columns[col_name] = v` for an existing key. -/
def colUpdate (m : ColMap) (k v : Str) : ColMap :=
  if m.any (fun p => p.1 == k) then
    m.map (fun p => if p.1 == k then (k, v) else p)
  else m ++ [(k, v)]

/-- The type-widening decision of `collect_all_columns_from_tables` when a
column is seen again: `cur` is the accumulated type, `new` the incoming one.
TEXT wins; then JSONB wins; then if both contain "INT", BIGINT if present
else INTEGER; otherwise the accumulated type is kept. -/
def mergeColType (cur new : Str) : Str :=
  if upperStr new = pstr "TEXT" || upperStr cur = pstr "TEXT" then pstr "TEXT"
  else if upperStr new = pstr "JSONB" || upperStr cur = pstr "JSONB" then pstr "JSONB"
  else if containsStr (upperStr new) (pstr "INT") && containsStr (upperStr cur) (pstr "INT") then
    if containsStr (upperStr new) (pstr "BIGINT") || containsStr (upperStr cur) (pstr "BIGINT") then
      pstr "BIGINT"
    else pstr "INTEGER"
  else cur

/-- Merging one `(column_name, data_type)` pair into the accumulator
(the `id` column is skipped by the caller). -/
def addColumn (m : ColMap) (colName colType : Str) : ColMap :=
  match colFind m colName with
  | some cur => colUpdate m colName (mergeColType cur colType)
  | none => m ++ [(colName, colType)]

/-- The per-column step of `collect_all_columns_from_tables`: skip the `id`
column, merge everything else. -/
def colStep (m : ColMap) (p : Str × Str) : ColMap :=
  if p.1 == pstr "id" then m else addColumn m p.1 p.2

/-- One iteration of the outer loop of `collect_all_columns_from_tables`:
fold the column list of one table into the accumulator, skipping `id`. -/
def collectColumnsOfTable (m : ColMap) (cols : List (Str × Str)) : ColMap :=
  cols.foldl colStep m

/-- What merging a type `t` into an optional accumulated type yields. -/
def mergeOpt (o : Option Str) (t : Str) : Str :=
  match o with
  | some cur => mergeColType cur t
  | none => t

/-- The four canonical silver column types, up to letter case. -/
def canonicalType (s : Str) : Prop :=
  upperStr s = pstr "TEXT" ∨ upperStr s = pstr "JSONB" ∨
  upperStr s = pstr "INTEGER" ∨ upperStr s = pstr "BIGINT"

/-- The widening precedence as a rank (highest wins). -/
def typeRank (s : Str) : Nat :=
  if upperStr s = pstr "TEXT" then 3
  else if upperStr s = pstr "JSONB" then 2
  else if upperStr s = pstr "BIGINT" then 1
  else 0

/-- The canonical spelling the widening rule produces for each rank. -/
def canonOfRank : Nat → Str
  | 3 => pstr "TEXT"
  | 2 => pstr "JSONB"
  | 1 => pstr "BIGINT"
  | _ => pstr "INTEGER"

/-- All accumulated types are canonical. -/
def allCanonical (m : ColMap) : Prop := ∀ p ∈ m, canonicalType p.2

/-- `bronze_to_silver.collect_all_columns_from_tables`, over the column lists
(`get_table_columns` output, in ordinal order) of the contributing tables. -/
def collect_all_columns_from_tables (tables : List (List (Str × Str))) : ColMap :=
  tables.foldl collectColumnsOfTable []

/-!
## JSON values and `json.dumps`

Numbers are modelled as integers (the documents handled by the pipeline are
integer-valued where it matters; no claim depends on float formatting), and
string escaping inside `dumps` is not modelled (no claim depends on it).
-/

inductive JValue : Type
  | null : JValue
  | bool (b : Bool) : JValue
  | num (n : Int) : JValue
  | str (s : Str) : JValue
  | arr (items : List JValue) : JValue
  | obj (fields : List (Str × JValue)) : JValue

mutual

def jvalBEq : JValue → JValue → Bool
  | .null, .null => true
  | .bool a, .bool b => a == b
  | .num a, .num b => a == b
  | .str a, .str b => a == b
  | .arr a, .arr b => jvalListBEq a b
  | .obj a, .obj b => jvalFieldsBEq a b
  | _, _ => false

def jvalListBEq : List JValue → List JValue → Bool
  | [], [] => true
  | a :: as, b :: bs => jvalBEq a b && jvalListBEq as bs
  | _, _ => false

def jvalFieldsBEq : List (Str × JValue) → List (Str × JValue) → Bool
  | [], [] => true
  | (k, v) :: as, (k2, v2) :: bs => k == k2 && jvalBEq v v2 && jvalFieldsBEq as bs
  | _, _ => false

end

mutual

theorem jvalBEq_refl : ∀ a : JValue, jvalBEq a a = true
  | .null => rfl
  | .bool a => by simp [jvalBEq]
  | .num a => by simp [jvalBEq]
  | .str a => by simp [jvalBEq]
  | .arr a => by simpa [jvalBEq] using jvalListBEq_refl a
  | .obj a => by simpa [jvalBEq] using jvalFieldsBEq_refl a

theorem jvalListBEq_refl : ∀ l : List JValue, jvalListBEq l l = true
  | [] => rfl
  | a :: as => by
    simp only [jvalListBEq, Bool.and_eq_true]
    exact ⟨jvalBEq_refl a, jvalListBEq_refl as⟩

theorem jvalFieldsBEq_refl : ∀ l : List (Str × JValue), jvalFieldsBEq l l = true
  | [] => rfl
  | (k, v) :: as => by
    simp only [jvalFieldsBEq, Bool.and_eq_true, beq_self_eq_true, true_and]
    exact ⟨jvalBEq_refl v, jvalFieldsBEq_refl as⟩

end

mutual

theorem jvalBEq_sound : ∀ a b : JValue, jvalBEq a b = true → a = b
  | .null, .null, _ => rfl
  | .bool a, .bool b, h => by simpa [jvalBEq] using h
  | .num a, .num b, h => by simpa [jvalBEq] using h
  | .str a, .str b, h => by simpa [jvalBEq] using h
  | .arr a, .arr b, h => by
    rw [jvalListBEq_sound a b (by simpa [jvalBEq] using h)]
  | .obj a, .obj b, h => by
    rw [jvalFieldsBEq_sound a b (by simpa [jvalBEq] using h)]
  | .null, .bool _, h => by simp [jvalBEq] at h
  | .null, .num _, h => by simp [jvalBEq] at h
  | .null, .str _, h => by simp [jvalBEq] at h
  | .null, .arr _, h => by simp [jvalBEq] at h
  | .null, .obj _, h => by simp [jvalBEq] at h
  | .bool _, .null, h => by simp [jvalBEq] at h
  | .bool _, .num _, h => by simp [jvalBEq] at h
  | .bool _, .str _, h => by simp [jvalBEq] at h
  | .bool _, .arr _, h => by simp [jvalBEq] at h
  | .bool _, .obj _, h => by simp [jvalBEq] at h
  | .num _, .null, h => by simp [jvalBEq] at h
  | .num _, .bool _, h => by simp [jvalBEq] at h
  | .num _, .str _, h => by simp [jvalBEq] at h
  | .num _, .arr _, h => by simp [jvalBEq] at h
  | .num _, .obj _, h => by simp [jvalBEq] at h
  | .str _, .null, h => by simp [jvalBEq] at h
  | .str _, .bool _, h => by simp [jvalBEq] at h
  | .str _, .num _, h => by simp [jvalBEq] at h
  | .str _, .arr _, h => by simp [jvalBEq] at h
  | .str _, .obj _, h => by simp [jvalBEq] at h
  | .arr _, .null, h => by simp [jvalBEq] at h
  | .arr _, .bool _, h => by simp [jvalBEq] at h
  | .arr _, .num _, h => by simp [jvalBEq] at h
  | .arr _, .str _, h => by simp [jvalBEq] at h
  | .arr _, .obj _, h => by simp [jvalBEq] at h
  | .obj _, .null, h => by simp [jvalBEq] at h
  | .obj _, .bool _, h => by simp [jvalBEq] at h
  | .obj _, .num _, h => by simp [jvalBEq] at h
  | .obj _, .str _, h => by simp [jvalBEq] at h
  | .obj _, .arr _, h => by simp [jvalBEq] at h

theorem jvalListBEq_sound : ∀ a b : List JValue, jvalListBEq a b = true → a = b
  | [], [], _ => rfl
  | a :: as, b :: bs, h => by
    simp only [jvalListBEq, Bool.and_eq_true] at h
    rw [jvalBEq_sound a b h.1, jvalListBEq_sound as bs h.2]
  | [], _ :: _, h => by simp [jvalListBEq] at h
  | _ :: _, [], h => by simp [jvalListBEq] at h

theorem jvalFieldsBEq_sound :
    ∀ a b : List (Str × JValue), jvalFieldsBEq a b = true → a = b
  | [], [], _ => rfl
  | (k, v) :: as, (k2, v2) :: bs, h => by
    simp only [jvalFieldsBEq, Bool.and_eq_true] at h
    have hk : k = k2 := by simpa using h.1.1
    rw [hk, jvalBEq_sound v v2 h.1.2, jvalFieldsBEq_sound as bs h.2]
  | [], _ :: _, h => by simp [jvalFieldsBEq] at h
  | _ :: _, [], h => by simp [jvalFieldsBEq] at h

end

instance : DecidableEq JValue := fun a b =>
  if h : jvalBEq a b = true then .isTrue (jvalBEq_sound a b h)
  else .isFalse (fun e => h (e ▸ jvalBEq_refl a))

def lbraceChar : Char := Char.ofNat 123
def rbraceChar : Char := Char.ofNat 125
def dquoteChar : Char := Char.ofNat 34
def squoteChar : Char := Char.ofNat 39

/-- Decimal digit character. -/
def digitChar (d : Nat) : Char := Char.ofNat (48 + d)

/-- Fuel-driven decimal rendering of a natural number (no output for `0`). -/
def natStrGo : Nat → Nat → Str
  | 0, _ => []
  | fuel + 1, n => if n = 0 then [] else natStrGo fuel (n / 10) ++ [digitChar (n % 10)]

/-- Python `str(n)` for a non-negative integer. -/
def natStr (n : Nat) : Str := if n = 0 then pstr "0" else natStrGo n n

/-- Python `str(i)` for an integer. -/
def intStr (i : Int) : Str := if i < 0 then '-' :: natStr i.natAbs else natStr i.natAbs

/-- Python `sep.join(parts)`. -/
def joinWith (sep : Str) : List Str → Str
  | [] => []
  | [x] => x
  | x :: y :: rest => x ++ sep ++ joinWith sep (y :: rest)

mutual

/-- `json.dumps` (default separators). -/
def dumps : JValue → Str
  | .null => pstr "null"
  | .bool b => if b then pstr "true" else pstr "false"
  | .num n => intStr n
  | .str s => dquoteChar :: s ++ [dquoteChar]
  | .arr items => '[' :: joinWith (pstr ", ") (dumpsList items) ++ [']']
  | .obj fields => lbraceChar :: joinWith (pstr ", ") (dumpsFields fields) ++ [rbraceChar]

def dumpsList : List JValue → List Str
  | [] => []
  | v :: rest => dumps v :: dumpsList rest

def dumpsFields : List (Str × JValue) → List Str
  | [] => []
  | (k, v) :: rest => (dquoteChar :: k ++ dquoteChar :: ':' :: ' ' :: dumps v) :: dumpsFields rest

end

/-!
## JSON Flattener (`import_json.flatten_json`)

`out` is a Python dict: insertion-ordered and value-overwriting.
-/

abbrev FlatMap := List (Str × JValue)

/-- Python dict assignment `out[key] = v`. -/
def flatSet (m : FlatMap) (k : Str) (v : JValue) : FlatMap :=
  if m.any (fun p => p.1 == k) then
    m.map (fun p => if p.1 == k then (k, v) else p)
  else m ++ [(k, v)]

mutual

/-- The inner `_flatten(x, name)` of `flatten_json`, threading the `out` dict.
`MAX_KEY_LENGTH = 58`, `MAX_TEXT_LENGTH = 8000` as in the source. -/
def flattenVal : JValue → Str → FlatMap → FlatMap
  | .obj fields, name, out => flattenFields fields name out
  | .arr items, name, out =>
    let jstr := dumps (.arr items)
    let jstr :=
      if jstr.length > 8000 then
        dumps (.obj [(pstr "warning", .str (pstr "List truncated")),
                     (pstr "length", .num (items.length : Int))])
      else jstr
    flatSet out name.dropLast (.str jstr)
  | x, name, out =>
    let key := name.dropLast
    if key = [] then out
    else
      let value :=
        match x with
        | .str s => if s.length > 8000 then JValue.str (s.take 8000 ++ pstr "... [truncated]") else .str s
        | w => w
      flatSet out key value

/-- The dict branch of `_flatten`: iterate the fields in order, extending the
key prefix with the sanitized child key truncated to 58 characters, then
re-truncating the whole prefix when it exceeds 58 characters. -/
def flattenFields : List (Str × JValue) → Str → FlatMap → FlatMap
  | [], _, out => out
  | (a, v) :: rest, name, out =>
    let safe0 := name ++ (sanitize_name a).take 58 ++ ['_']
    let safeName := if safe0.length > 58 then safe0.take 58 ++ ['_'] else safe0
    flattenFields rest name (flattenVal v safeName out)

end

/-- `flatten_json(obj)`: run `_flatten` with an empty prefix and empty dict.
The broad `except` of the source (degrading to a single `json_data` column)
models library-level failures only; the pure traversal above never raises, so
the non-fallback behaviour is total here. -/
def flatten_json (obj : JValue) : FlatMap := flattenVal obj [] []

/-!
## Ingestion Engine (`import_json.process_blob` and its ledger)
-/

/-- `isinstance(v, list)`. -/
def isArrJ : JValue → Bool
  | .arr _ => true
  | _ => false

/-- The root-normalization step of `process_blob` (lines 264-272): a list root
is used as is; a dict root with at least one list-valued field is replaced by
the first such list (in field order); anything else is wrapped in a
one-element list. -/
def normalizeRoot (data : JValue) : List JValue :=
  match data with
  | .arr l => l
  | .obj fields =>
    if fields.any (fun p => isArrJ p.2) then
      match fields.find? (fun p => isArrJ p.2) with
      | some (_, .arr l) => l
      | _ => [data]
    else [data]
  | _ => [data]

structure ImportEntry where
  file_path : Str
  file_hash : Str
  schema_name : Str
  table_name : Str
  row_count : Nat
  status : Str
  error_message : Option Str
deriving DecidableEq

/-- One `memory_tracking` entry; only the `file_hash` and `status` keys are
ever read back, so only those are modelled. -/
structure MemEntry where
  file_hash : Str
  status : Str
deriving DecidableEq

structure BronzeRow where
  cells : List (Str × JValue)
deriving DecidableEq

structure BronzeTable where
  cols : List Str
  rows : List BronzeRow
deriving DecidableEq

structure BronzeState where
  ledger : List ImportEntry
  memory : List (Str × MemEntry)
  tables : List ((Str × Str) × BronzeTable)
deriving DecidableEq

inductive BEv : Type
  | dropTable (schema table : Str)
  | createTable (schema table : Str)
  | insertRow (schema table : Str)
deriving DecidableEq

def memFind (mem : List (Str × MemEntry)) (path : Str) : Option MemEntry :=
  (mem.find? (fun p => p.1 == path)).map (fun p => p.2)

def memSet (mem : List (Str × MemEntry)) (path : Str) (e : MemEntry) : List (Str × MemEntry) :=
  if mem.any (fun p => p.1 == path) then
    mem.map (fun p => if p.1 == path then (path, e) else p)
  else mem ++ [(path, e)]

def tabDel (ts : List ((Str × Str) × BronzeTable)) (k : Str × Str) : List ((Str × Str) × BronzeTable) :=
  ts.filter (fun p => !(p.1 == k))

def tabSet (ts : List ((Str × Str) × BronzeTable)) (k : Str × Str) (v : BronzeTable) :
    List ((Str × Str) × BronzeTable) :=
  ts ++ [(k, v)]

/-- `import_json.calculate_file_hash`: the `md5` hex digest of the content,
modelled by the content itself (see the header note on digests). -/
def calculate_file_hash (content : Str) : Str := content

/-- `import_json.is_file_already_imported`: consult the in-memory cache first,
then the tracking table (refreshing the cache on a hit, as the source does). -/
def is_file_already_imported (st : BronzeState) (path hash : Str) : BronzeState × Bool :=
  match memFind st.memory path with
  | some e => (st, e.status == pstr "success" && e.file_hash == hash)
  | none =>
    match st.ledger.find? (fun e => e.file_path == path && e.file_hash == hash) with
    | some e =>
      ({ st with memory := memSet st.memory path ⟨hash, e.status⟩ },
       e.status == pstr "success")
    | none => (st, false)

/-- `import_json.update_import_status`: refresh the memory cache and upsert the
tracking row (`ON CONFLICT (file_path) DO UPDATE`). -/
def update_import_status (st : BronzeState) (path hash schema table : Str)
    (rowCount : Nat) (status : Str) (err : Option Str) : BronzeState :=
  let mem := memSet st.memory path ⟨hash, status⟩
  let entry : ImportEntry := ⟨path, hash, schema, table, rowCount, status, err⟩
  let ledger :=
    if st.ledger.any (fun e => e.file_path == path) then
      st.ledger.map (fun e => if e.file_path == path then entry else e)
    else st.ledger ++ [entry]
  { st with memory := mem, ledger := ledger }

/-- A source document: logical path, raw content, and the result of
`json.loads(content)` (`none` models a parse failure; reparsing the same
bytes is deterministic, so `parsed` travels with the content). -/
structure Doc where
  path : Str
  content : Str
  parsed : Option JValue
deriving DecidableEq

/-- The target schema derived from the blob path in `process_blob`:
`sanitize_name(parts[-2])` when the path has more than two segments,
otherwise `main`. -/
def docSchema (doc : Doc) : Str :=
  let parts := splitOnChar '/' doc.path
  if parts.length > 2 then sanitize_name (parts.getD (parts.length - 2) []) else pstr "main"

/-- The target table derived from the blob path in `process_blob`:
`sanitize_name(parts[-1].replace(".json", ""))`. -/
def docTable (doc : Doc) : Str :=
  sanitize_name (replaceAll ((splitOnChar '/' doc.path).getLastD []) (pstr ".json") [])

/-- `import_json.process_blob`: returns the new state, the trace of table
events it executed (drops / creations / row inserts), and its return value.
Row inserts are total in this model, so the per-row JSON-only retry path is
never taken (as in the source when no insert raises). -/
def processBlob (doc : Doc) (st0 : BronzeState) : BronzeState × List BEv × Bool :=
  let file_hash := calculate_file_hash doc.content
  let (st, already) := is_file_already_imported st0 doc.path file_hash
  if already then (st, [], true)
  else
    let schema := docSchema doc
    let table := docTable doc
    match doc.parsed with
    | none =>
      (update_import_status st doc.path file_hash schema table 0 (pstr "error")
        (some (pstr "json parse error")), [], false)
    | some data =>
      let array_data := normalizeRoot data
      let all_flats := array_data.map flatten_json
      let all_columns : List Str :=
        all_flats.foldl (fun acc f =>
          f.foldl (fun a p => if a.contains p.1 then a else a ++ [p.1]) acc) []
      if all_columns = [] then
        let evs := [BEv.dropTable schema table, BEv.createTable schema table] ++
          array_data.map (fun _ => BEv.insertRow schema table)
        let rows := array_data.map (fun item =>
          BronzeRow.mk [(pstr "json_data", .str (dumps item))])
        let st1 := { st with
          tables := tabSet (tabDel st.tables (schema, table)) (schema, table)
            ⟨[pstr "json_data"], rows⟩ }
        (update_import_status st1 doc.path file_hash schema table array_data.length
          (pstr "success") none, evs, true)
      else
        let cols_def := all_columns.map (fun col =>
          let cn := (sanitize_name col).take 58
          if lowerStr cn = pstr "id" then pstr "json_id" else cn)
        let evs := [BEv.dropTable schema table, BEv.createTable schema table] ++
          array_data.map (fun _ => BEv.insertRow schema table)
        let rows := (array_data.zip all_flats).map (fun iv =>
          BronzeRow.mk (iv.2 ++ [(pstr "json_data", .str (dumps iv.1))]))
        let st1 := { st with
          tables := tabSet (tabDel st.tables (schema, table)) (schema, table)
            ⟨cols_def ++ [pstr "json_data"], rows⟩ }
        (update_import_status st1 doc.path file_hash schema table array_data.length
          (pstr "success") none, evs, true)

/-- The per-document loop of `import_json.main`, accumulating `failed_imports`
(the documents whose `process_blob` returned `False`). -/
def runImports (docs : List Doc) (st : BronzeState) : BronzeState × List Str :=
  docs.foldl (fun acc d =>
    let r := processBlob d acc.1
    (r.1, if r.2.2 then acc.2 else acc.2 ++ [d.path])) (st, [])

/-- The process exit code of `import_json.main` (lines 571-579): `1` when the
database never became reachable, otherwise `1` when `failed_imports` is
non-empty and `0` when it is empty. -/
def importMainExit (connected : Bool) (docs : List Doc) (st : BronzeState) : Nat :=
  if !connected then 1
  else
    let r := runImports docs st
    if r.2.isEmpty then 0 else 1

/-!
## Bronze→Silver transformation (`bronze_to_silver.py`)

A bronze source table is modelled by its name, its `information_schema`
column list (ordinal order), its rows, and an `accessible` flag: `accessible
= false` models a table listed in the catalog on which every direct `SELECT`
(probe, `COUNT(*)`, bulk read) raises, as handled by the source.
-/

structure SrcRow where
  rid : Nat
  cells : List (Str × Str)
deriving DecidableEq

structure SrcTable where
  name : Str
  accessible : Bool
  columns : List (Str × Str)
  rows : List SrcRow
deriving DecidableEq

/-- Python `str(columns)` where `columns` is the fetched list of
`(column_name, data_type)` tuples: `[('a', 'text'), ...]`. -/
def pyReprPair (p : Str × Str) : Str :=
  '(' :: squoteChar :: p.1 ++ squoteChar :: ',' :: ' ' :: squoteChar :: p.2 ++ [squoteChar, ')']

def pyReprCols (cols : List (Str × Str)) : Str :=
  '[' :: joinWith (pstr ", ") (cols.map pyReprPair) ++ [']']

/-- The `f"{table}:{row_count}:{str(columns)}"` entry of
`calculate_tables_hash`. -/
def tableInfo (t : SrcTable) : Str :=
  t.name ++ ':' :: natStr t.rows.length ++ ':' :: pyReprCols t.columns

/-- Lexicographic comparison of Python strings (code-point order). -/
def lexLe : Str → Str → Bool
  | [], _ => true
  | _ :: _, [] => false
  | a :: as, b :: bs => if a < b then true else if a = b then lexLe as bs else false

def insSorted (x : Str) : List Str → List Str
  | [] => [x]
  | y :: ys => if lexLe x y then x :: y :: ys else y :: insSorted x ys

/-- Python `sorted` on strings. `lexLe` is a total antisymmetric order, so the
sorted list is unique and any correct sorting algorithm (here insertion sort,
in the source Python's stable sort) produces it. -/
def sortStrs : List Str → List Str
  | [] => []
  | x :: xs => insSorted x (sortStrs xs)

/-- `bronze_to_silver.calculate_tables_hash`: per accessible table the
`name:rowcount:str(columns)` entry, sorted, joined with `"|"`; `none` when any
queried table raises (the source returns `None` after logging). The final
`md5` digest is modelled by its input (see the header note). -/
def calculate_tables_hash (tables : List SrcTable) : Option Str :=
  if tables.all (fun t => t.accessible) then
    some (joinWith ['|'] (sortStrs (tables.map tableInfo)))
  else none

structure TransEntry where
  source_schema : Str
  source_tables : Str
  target_schema : Str
  target_table : Str
  transformation_type : Str
  source_hash : Str
  row_count : Nat
  status : Str
  error_message : Option Str
deriving DecidableEq

/-- The `SELECT ... WHERE source_schema = %s AND target_table = %s AND
transformation_type = %s` lookup (the table is unique on that triple). -/
def transFind (ledger : List TransEntry) (schema target ttype : Str) : Option TransEntry :=
  ledger.find? (fun e =>
    e.source_schema == schema && e.target_table == target && e.transformation_type == ttype)

/-- `bronze_to_silver.is_transformation_needed`: `false` exactly when the
ledger row exists with status `success` and an unchanged hash. -/
def is_transformation_needed (ledger : List TransEntry) (schema target ttype hash : Str) : Bool :=
  match transFind ledger schema target ttype with
  | some e => !(e.status == pstr "success" && e.source_hash == hash)
  | none => true

/-- `bronze_to_silver.update_transformation_status`: upsert on
`(source_schema, target_table, transformation_type)`. -/
def update_transformation_status (ledger : List TransEntry) (schema : Str)
    (srcTables : List Str) (targetSchema target ttype hash : Str)
    (rowCount : Nat) (status : Str) (err : Option Str) : List TransEntry :=
  let entry : TransEntry :=
    ⟨schema, joinWith [','] srcTables, targetSchema, target, ttype, hash, rowCount, status, err⟩
  if ledger.any (fun e =>
      e.source_schema == schema && e.target_table == target &&
      e.transformation_type == ttype) then
    ledger.map (fun e =>
      if e.source_schema == schema && e.target_table == target &&
         e.transformation_type == ttype then entry else e)
  else ledger ++ [entry]

/-- One row of a silver fusion table: provenance columns plus one cell per
reconciled column (`none` models SQL `NULL`). -/
structure FusionRow where
  source_table : Str
  original_id : Nat
  cells : List (Str × Option Str)
deriving DecidableEq

structure SilverState where
  ledger : List TransEntry
  fusions : List ((Str × Str) × (ColMap × List FusionRow))
  copies : List ((Str × Str) × (List (Str × Str) × List SrcRow))
deriving DecidableEq

inductive SEv : Type
  | drop (schema table : Str)
  | create (schema table : Str)
  | insertFrom (schema table source : Str)
deriving DecidableEq

/-- The fusion table stored in the silver store under a (schema, name) key. -/
def silverFusionTable (st : SilverState) (k : Str × Str) :
    Option (ColMap × List FusionRow) :=
  (st.fusions.find? (fun p => p.1 == k)).map (fun p => p.2)

/-- `DROP TABLE IF EXISTS schema.name` in the silver store. -/
def silDrop (st : SilverState) (k : Str × Str) : SilverState :=
  { st with fusions := st.fusions.filter (fun p => !(p.1 == k)),
            copies := st.copies.filter (fun p => !(p.1 == k)) }

/-- The value of column `c` in a source row (`none` when absent). -/
def rowCell (r : SrcRow) (c : Str) : Option Str :=
  (r.cells.find? (fun p => p.1 == c)).map (fun p => p.2)

/-- The non-`id` column names of a table (`table_columns` in the source). -/
def nonIdCols (t : SrcTable) : List Str :=
  (t.columns.map (fun p => p.1)).filter (fun c => !(c == pstr "id"))

/-- One inserted fusion row: the `dblink` SELECT projects the source's `id`
into `original_id`, tags `source_table` with the table name, and emits the
source value for each reconciled column the table has, `NULL` otherwise. -/
def mkFusionRow (allColNames tcols : List Str) (tname : Str) (r : SrcRow) : FusionRow :=
  ⟨tname, r.rid, allColNames.map (fun c =>
    (c, if tcols.contains c then rowCell r c else none))⟩

/-- The per-table insert loop of `create_fusion_table`: tables whose non-`id`
column list is empty are skipped (`continue`); otherwise all rows go in. -/
def fusionRowsOf (allColNames : List Str) (existingTables : List SrcTable) : List FusionRow :=
  existingTables.flatMap (fun t =>
    if (nonIdCols t).isEmpty then []
    else t.rows.map (mkFusionRow allColNames (nonIdCols t) t.name))

/-- The part of `create_fusion_table` after its idempotency gate and the
`in_progress` mark: accessibility filter, column reconciliation,
drop/create/insert, `success` mark. `preT` is the catalogued prefix match,
`st1` the state with the `in_progress` ledger entry already written. -/
def fusionBody (preT : List SrcTable) (st1 : SilverState)
    (schema fusionName : Str) (sourceHash : Option Str) : SilverState × List SEv :=
  let existingTables := preT.filter (fun t => t.accessible)
  if existingTables.isEmpty then (st1, [])
  else
    let allColumns := collect_all_columns_from_tables (existingTables.map (fun t => t.columns))
    if allColumns.isEmpty then (st1, [])
    else
      let allColNames := allColumns.map (fun p => p.1)
      let rows := fusionRowsOf allColNames existingTables
      let evs := [SEv.drop schema fusionName, SEv.create schema fusionName] ++
        (existingTables.filter (fun t => !(nonIdCols t).isEmpty)).map
          (fun t => SEv.insertFrom schema fusionName t.name)
      let totalRows := rows.length
      let st2 := let d := silDrop st1 (schema, fusionName)
        { d with fusions := d.fusions ++ [((schema, fusionName), (allColumns, rows))] }
      let st3 :=
        match sourceHash with
        | some h =>
          let led := update_transformation_status st2.ledger schema
            (preT.map (fun t => t.name)) schema fusionName (pstr "fusion") h totalRows
            (pstr "success") none
          { st2 with ledger := led }
        | none => st2
      (st3, evs)

/-- `bronze_to_silver.create_fusion_table` over the tables of one bronze
schema, returning the new silver state and the trace of DDL/DML executed.
Control flow mirrors the source: empty prefix match → return; hash + skip
gate; mark `in_progress` (only when the hash was computable); then the body
(accessibility filter, reconciliation, drop/create/insert, `success`). -/
def create_fusion_table (bron : List SrcTable) (st : SilverState)
    (schema tablePre fusionName : Str) : SilverState × List SEv :=
  let preTables := bron.filter (fun t => startsWithStr tablePre t.name)
  if preTables.isEmpty then (st, [])
  else
    let sourceHash := calculate_tables_hash preTables
    if (match sourceHash with
        | some h => !(is_transformation_needed st.ledger schema fusionName (pstr "fusion") h)
        | none => false) then (st, [])
    else
      let st1 :=
        match sourceHash with
        | some h =>
          let led := update_transformation_status st.ledger schema
            (preTables.map (fun t => t.name)) schema fusionName (pstr "fusion") h 0
            (pstr "in_progress") none
          { st with ledger := led }
        | none => st
      fusionBody preTables st1 schema fusionName sourceHash

/-- The part of `copy_table` after its idempotency gate and the `in_progress`
mark: empty-column early return, drop/create/bulk copy, `success` mark. -/
def copyBody (t : SrcTable) (st1 : SilverState)
    (schema tname : Str) (sourceHash : Option Str) : SilverState × List SEv :=
  if t.columns.isEmpty then (st1, [])
  else
    let evs := [SEv.drop schema tname, SEv.create schema tname,
      SEv.insertFrom schema tname tname]
    let st2 := let d := silDrop st1 (schema, tname)
      { d with copies := d.copies ++ [((schema, tname), (t.columns, t.rows))] }
    let st3 :=
      match sourceHash with
      | some h =>
        let led := update_transformation_status st2.ledger schema
          [tname] schema tname (pstr "copy") h t.rows.length (pstr "success") none
        { st2 with ledger := led }
      | none => st2
    (st3, evs)

/-- `bronze_to_silver.copy_table`: accessibility probe, hash + skip gate,
`in_progress`, then the body (empty-column early return, drop/create/bulk
copy, `success`). The bulk copy succeeds in this model, so the chunked
row-by-row fallback is never taken (as in the source when `dblink` does not
raise). -/
def copy_table (bron : List SrcTable) (st : SilverState)
    (schema tname : Str) : SilverState × List SEv :=
  match bron.find? (fun t => t.name == tname) with
  | none => (st, [])
  | some t =>
    if !t.accessible then (st, [])
    else
      let sourceHash := calculate_tables_hash [t]
      if (match sourceHash with
          | some h => !(is_transformation_needed st.ledger schema tname (pstr "copy") h)
          | none => false) then (st, [])
      else
        let st1 :=
          match sourceHash with
          | some h =>
            let led := update_transformation_status st.ledger schema
              [tname] schema tname (pstr "copy") h 0 (pstr "in_progress") none
            { st with ledger := led }
          | none => st
        copyBody t st1 schema tname sourceHash

/-- `bronze_to_silver.get_all_tables`: partition a schema's tables into
`<schema>_`-prefixed, `fluff_<schema>_`-prefixed, and the rest. -/
def get_all_tables (bron : List SrcTable) (schema : Str) :
    List SrcTable × List SrcTable × List SrcTable :=
  let namePre := schema ++ ['_']
  let fluffPre := pstr "fluff_" ++ schema ++ ['_']
  (bron.filter (fun t => startsWithStr namePre t.name),
   bron.filter (fun t => !startsWithStr namePre t.name && startsWithStr fluffPre t.name),
   bron.filter (fun t => !startsWithStr namePre t.name && !startsWithStr fluffPre t.name))

/-- `bronze_to_silver.process_schema`. The source special-cases a known schema
list only to pick the fusion name, which coincides with the general branch
except for `bestiary` → `fusion_monsters`. -/
def process_schema (bron : List SrcTable) (st : SilverState) (schema : Str) :
    SilverState × List SEv :=
  let parts := get_all_tables bron schema
  let r1 :=
    if !parts.1.isEmpty then
      let fusionName :=
        if schema == pstr "bestiary" then pstr "fusion_monsters" else pstr "fusion_" ++ schema
      create_fusion_table bron st schema (schema ++ ['_']) fusionName
    else (st, [])
  let r2 :=
    if !parts.2.1.isEmpty then
      create_fusion_table bron r1.1 schema (pstr "fluff_" ++ schema ++ ['_'])
        (pstr "fusion_fluff_" ++ schema)
    else (r1.1, [])
  let r3 := parts.2.2.foldl (fun acc t =>
    let r := copy_table bron acc.1 schema t.name
    (r.1, acc.2 ++ r.2)) (r2.1, [])
  (r3.1, r1.2 ++ r2.2 ++ r3.2)

/-- The schema loop of `bronze_to_silver.main`: the `main` schema is copied
table by table, every other schema goes through `process_schema`. -/
def runSchemas (bronDB : List (Str × List SrcTable)) (st : SilverState) :
    SilverState × List SEv :=
  bronDB.foldl (fun acc p =>
    if p.1 == pstr "main" then
      p.2.foldl (fun a t =>
        let r := copy_table p.2 a.1 (pstr "main") t.name
        (r.1, a.2 ++ r.2)) acc
    else
      let r := process_schema p.2 acc.1 p.1
      (r.1, acc.2 ++ r.2)) (st, [])

/-- The return value of `bronze_to_silver.main` (its process exit code):
`1` only when connecting/setup raised; once connected, every per-schema and
per-table failure is caught inside the loop and the run returns `0`. -/
def bronzeMainRun (connected : Bool) (bronDB : List (Str × List SrcTable))
    (st : SilverState) : Nat × SilverState :=
  if connected then (0, (runSchemas bronDB st).1) else (1, st)

/-!
## Concrete instances used by witnesses and counterexamples
-/

def bronzeInit : BronzeState := ⟨[], [], []⟩

def silverInit : SilverState := ⟨[], [], []⟩

/-- An object root with two list-valued fields. -/
def multiListObj : JValue := .obj [(pstr "a", .arr [.num 1]), (pstr "b", .arr [.num 2])]

/-- A document whose content is not valid JSON. -/
def badDoc : Doc := ⟨pstr "a/b/bad.json", pstr "not json", none⟩

/-- A well-formed single-object document. -/
def importDocOk : Doc :=
  ⟨pstr "data/rules/intro.json", pstr "rawbytes-ok",
   some (.obj [(pstr "title", .str (pstr "intro")), (pstr "page", .num 7)])⟩

/-- The document used for the ingestion idempotency witness. -/
def importDocA : Doc :=
  ⟨pstr "data/spells/phb.json", pstr "rawbytes-a",
   some (.arr [.obj [(pstr "name", .str (pstr "mage hand"))],
               .obj [(pstr "name", .str (pstr "fireball")), (pstr "level", .num 3)]])⟩

/-- An accessible catalogued table with no columns at all (legal in
PostgreSQL: `CREATE TABLE t()`). -/
def tNoCols : SrcTable := ⟨pstr "weird", true, [], []⟩

/-- An accessible table whose only column is `id`. -/
def tIdOnly : SrcTable := ⟨pstr "rules_x", true, [(pstr "id", pstr "integer")], [⟨1, []⟩]⟩

def mkNameRow (n : Nat) : SrcRow := ⟨n, [(pstr "name", pstr "some value")]⟩

def tSpellsPhb : SrcTable :=
  ⟨pstr "spells_phb", true,
   [(pstr "id", pstr "integer"), (pstr "name", pstr "text"), (pstr "json_data", pstr "jsonb")],
   [mkNameRow 1, mkNameRow 2, mkNameRow 3]⟩

def tSpellsXge : SrcTable :=
  ⟨pstr "spells_xge", true,
   [(pstr "id", pstr "integer"), (pstr "name", pstr "text"), (pstr "lvl", pstr "text")],
   [mkNameRow 1, mkNameRow 2]⟩

/-- A ledger entry recording a successful fusion of `tSpellsPhb` with its
current fingerprint (`calculate_tables_hash [tSpellsPhb]` joins the single
entry `tableInfo tSpellsPhb`). -/
def fusEntrySucc : TransEntry :=
  ⟨pstr "spells", pstr "spells_phb", pstr "spells", pstr "fusion_spells",
   pstr "fusion", tableInfo tSpellsPhb, 3, pstr "success", none⟩

/-- A ledger entry recording a successful copy of `tSpellsXge` with its
current fingerprint. -/
def copyEntrySucc : TransEntry :=
  ⟨pstr "main", pstr "spells_xge", pstr "main", pstr "spells_xge",
   pstr "copy", tableInfo tSpellsXge, 2, pstr "success", none⟩

def silverWithEntries : SilverState := ⟨[fusEntrySucc, copyEntrySucc], [], []⟩

/-- A table-set edit for the fingerprint-sensitivity claim: append one row `r`
to the table called `tname`, leaving every other table untouched. -/
def bumpTable (tname : Str) (r : SrcRow) (ts : List SrcTable) : List SrcTable :=
  ts.map (fun u => if u.name = tname then { u with rows := u.rows ++ [r] } else u)

/-- A ledger entry recording a successful fusion of `tSpellsPhb` and
`tSpellsXge` with the fingerprint currently computed over those two tables. -/
def c5Entry : TransEntry :=
  ⟨pstr "spells", pstr "spells_phb,spells_xge", pstr "spells", pstr "fusion_spells",
   pstr "fusion", joinWith ['|'] (sortStrs ([tSpellsPhb, tSpellsXge].map tableInfo)), 5,
   pstr "success", none⟩

/-!
## Theorems
-/

/-- C2: when a column is seen in two contributing tables with different types,
the reconciler resolves the pair by the precedence TEXT > JSONB > (both
contain "INT": BIGINT when present, else INTEGER) > first-seen kept, and in
particular INTEGER+TEXT → TEXT, INTEGER+BIGINT → BIGINT, JSONB+INTEGER →
JSONB. -/
theorem C2_type_reconciler_precedence (cur new c t1 t2 : Str) :
    ((upperStr cur = pstr "TEXT" ∨ upperStr new = pstr "TEXT") →
      mergeColType cur new = pstr "TEXT") ∧
    (upperStr cur ≠ pstr "TEXT" → upperStr new ≠ pstr "TEXT" →
      (upperStr cur = pstr "JSONB" ∨ upperStr new = pstr "JSONB") →
      mergeColType cur new = pstr "JSONB") ∧
    (upperStr cur ≠ pstr "TEXT" → upperStr new ≠ pstr "TEXT" →
      upperStr cur ≠ pstr "JSONB" → upperStr new ≠ pstr "JSONB" →
      containsStr (upperStr cur) (pstr "INT") = true →
      containsStr (upperStr new) (pstr "INT") = true →
      (containsStr (upperStr cur) (pstr "BIGINT") = true ∨
       containsStr (upperStr new) (pstr "BIGINT") = true) →
      mergeColType cur new = pstr "BIGINT") ∧
    (upperStr cur ≠ pstr "TEXT" → upperStr new ≠ pstr "TEXT" →
      upperStr cur ≠ pstr "JSONB" → upperStr new ≠ pstr "JSONB" →
      ¬(containsStr (upperStr cur) (pstr "INT") = true ∧
        containsStr (upperStr new) (pstr "INT") = true) →
      mergeColType cur new = cur) ∧
    (c ≠ pstr "id" →
      collect_all_columns_from_tables [[(c, t1)], [(c, t2)]] = [(c, mergeColType t1 t2)]) ∧
    collect_all_columns_from_tables [[(pstr "a", pstr "INTEGER")], [(pstr "a", pstr "TEXT")]] =
      [(pstr "a", pstr "TEXT")] ∧
    collect_all_columns_from_tables [[(pstr "b", pstr "INTEGER")], [(pstr "b", pstr "BIGINT")]] =
      [(pstr "b", pstr "BIGINT")] ∧
    collect_all_columns_from_tables [[(pstr "c", pstr "JSONB")], [(pstr "c", pstr "INTEGER")]] =
      [(pstr "c", pstr "JSONB")] := by
  refine ⟨?_, ?_, ?_, ?_, ?_, by decide, by decide, by decide⟩
  · intro h
    unfold mergeColType
    rcases h with h | h
    · rw [if_pos (by simp [h])]
    · rw [if_pos (by simp [h])]
  · intro hc hn h
    unfold mergeColType
    rcases h with h | h <;>
      rw [if_neg (by simp [hc, hn]), if_pos (by simp [h])]
  · intro hc hn hc2 hn2 hi hi2 hb
    unfold mergeColType
    rw [if_neg (by simp [hc, hn]), if_neg (by simp [hc2, hn2]), if_pos (by simp [hi, hi2]),
      if_pos (by rcases hb with hb | hb <;> simp [hb])]
  · intro hc hn hc2 hn2 hi
    unfold mergeColType
    rw [if_neg (by simp [hc, hn]), if_neg (by simp [hc2, hn2]), if_neg]
    simp only [Bool.and_eq_true]
    exact fun hx => hi ⟨hx.2, hx.1⟩
  · intro hc
    simp [collect_all_columns_from_tables, collectColumnsOfTable, colStep, addColumn, colFind,
      colUpdate, hc]

/-- C2 witness: the precedence theorem applied at concrete types. -/
theorem C2_witness :
    mergeColType (pstr "integer") (pstr "text") = pstr "TEXT" ∧
    mergeColType (pstr "varchar") (pstr "date") = pstr "varchar" ∧
    collect_all_columns_from_tables [[(pstr "name", pstr "text")], [(pstr "name", pstr "jsonb")]] =
      [(pstr "name", mergeColType (pstr "text") (pstr "jsonb"))] :=
  ⟨(C2_type_reconciler_precedence (pstr "integer") (pstr "text") (pstr "z") (pstr "z") (pstr "z")).1
      (Or.inr (by decide)),
   (C2_type_reconciler_precedence (pstr "varchar") (pstr "date") (pstr "z") (pstr "z") (pstr "z")).2.2.2.1
      (by decide) (by decide) (by decide) (by decide) (by decide),
   (C2_type_reconciler_precedence (pstr "z") (pstr "z") (pstr "name") (pstr "text") (pstr "jsonb")).2.2.2.2.1
      (by decide)⟩

/-- C6 counterexample: the reconciled mapping is NOT order-independent for
arbitrary types. A column seen as `smallint` in one table and `date` in the
other keeps whichever type was processed first (the final `else` of the
widening rule keeps the accumulated type), so the two processing orders give
different mappings. -/
theorem C6_counterexample :
    collect_all_columns_from_tables [[(pstr "x", pstr "smallint")], [(pstr "x", pstr "date")]] =
      [(pstr "x", pstr "smallint")] ∧
    collect_all_columns_from_tables [[(pstr "x", pstr "date")], [(pstr "x", pstr "smallint")]] =
      [(pstr "x", pstr "date")] ∧
    colFind (collect_all_columns_from_tables
        [[(pstr "x", pstr "smallint")], [(pstr "x", pstr "date")]]) (pstr "x") ≠
      colFind (collect_all_columns_from_tables
        [[(pstr "x", pstr "date")], [(pstr "x", pstr "smallint")]]) (pstr "x") := by
  decide

/-- C7 counterexample: an object root with two list-valued fields is replaced
by its first list, not wrapped as a single-item array as the claim states. -/
theorem C7_counterexample :
    normalizeRoot multiListObj = [JValue.num 1] ∧
    normalizeRoot multiListObj ≠ [multiListObj] := by
  decide

/-- C7 (amended): a list root is used as is; an object root with at least one
list-valued field is replaced by its first list-valued field's list (in field
order); an object root with no list-valued field, and any scalar root, is
wrapped as a single-item array. -/
theorem C7_root_normalization (data : JValue) :
    (∀ l, data = .arr l → normalizeRoot data = l) ∧
    (∀ fields, data = .obj fields →
      (∀ k l, fields.find? (fun p => isArrJ p.2) = some (k, .arr l) →
        normalizeRoot data = l) ∧
      (fields.find? (fun p => isArrJ p.2) = none → normalizeRoot data = [data])) ∧
    ((∀ l, data ≠ .arr l) → (∀ f, data ≠ .obj f) → normalizeRoot data = [data]) := by
  refine ⟨?_, ?_, ?_⟩
  · rintro l rfl; rfl
  · rintro fields rfl
    constructor
    · intro k l hfind
      have hmem := List.mem_of_find?_eq_some hfind
      have hp := List.find?_some hfind
      have hany : fields.any (fun p => isArrJ p.2) = true :=
        List.any_eq_true.mpr ⟨(k, .arr l), hmem, hp⟩
      simp [normalizeRoot, hany, hfind]
    · intro hnone
      have hany : fields.any (fun p => isArrJ p.2) = false := by
        rw [Bool.eq_false_iff]
        intro hx
        rcases List.any_eq_true.mp hx with ⟨p, hp, hpa⟩
        exact absurd hpa (by simpa using List.find?_eq_none.mp hnone p hp)
      simp [normalizeRoot, hany]
  · intro ha ho
    cases data with
    | null => rfl
    | bool b => rfl
    | num n => rfl
    | str s => rfl
    | arr l => exact absurd rfl (ha l)
    | obj f => exact absurd rfl (ho f)

/-- C7 witness: the amended normalization applied to concrete roots. -/
theorem C7_witness :
    normalizeRoot (.obj [(pstr "a", .arr [.num 3])]) = [.num 3] ∧
    normalizeRoot (.obj [(pstr "a", .str (pstr "v"))]) =
      [.obj [(pstr "a", .str (pstr "v"))]] ∧
    normalizeRoot (.num 5) = [.num 5] :=
  ⟨((C7_root_normalization (.obj [(pstr "a", .arr [.num 3])])).2.1 _ rfl).1
      (pstr "a") [.num 3] (by decide),
   ((C7_root_normalization (.obj [(pstr "a", .str (pstr "v"))])).2.1 _ rfl).2 (by decide),
   (C7_root_normalization (.num 5)).2.2 (fun l h => JValue.noConfusion h)
     (fun f h => JValue.noConfusion h)⟩

/-- C8 counterexample: with store connectivity up, a run of the JSON-import
pipeline in which one document fails exits with code 1, not a non-fatal code
(`import_json.main` exits 1 whenever `failed_imports` is non-empty). -/
theorem C8_counterexample :
    importMainExit true [badDoc] bronzeInit = 1 ∧
    importMainExit true [badDoc] bronzeInit ≠ 0 := by
  decide

/-- C8 (amended): once connected, the bronze→silver orchestrator always exits
0, regardless of per-table failures; the JSON-import process instead exits 0
exactly when no document failed, and 1 otherwise. -/
theorem C8_exit_codes :
    (∀ bronDB st, (bronzeMainRun true bronDB st).1 = 0) ∧
    (∀ docs st0, importMainExit true docs st0 =
      if (runImports docs st0).2.isEmpty then 0 else 1) ∧
    importMainExit true [importDocOk] bronzeInit = 0 := by
  exact ⟨fun _ _ => rfl, fun _ _ => rfl, by decide⟩

theorem flatSet_keys_le (m : FlatMap) (k : Str) (v : JValue) (n : Nat)
    (hm : ∀ p ∈ m, p.1.length ≤ n) (hk : k.length ≤ n) :
    ∀ p ∈ flatSet m k v, p.1.length ≤ n := by
  intro p hp
  unfold flatSet at hp
  split at hp
  · rcases List.mem_map.mp hp with ⟨q, hq, hqe⟩
    by_cases hqk : (q.1 == k) = true
    · rw [if_pos hqk] at hqe
      subst hqe
      exact hk
    · rw [if_neg hqk] at hqe
      subst hqe
      exact hm q hq
  · rcases List.mem_append.mp hp with h | h
    · exact hm p h
    · simp only [List.mem_singleton] at h
      subst h
      exact hk

theorem truncName_le (s : Str) :
    (if s.length > 58 then s.take 58 ++ ['_'] else s).length ≤ 59 := by
  split
  · simp only [List.length_append, List.length_take, List.length_singleton]
    omega
  · omega

mutual

theorem flattenVal_keys_le (x : JValue) (name : Str) (out : FlatMap)
    (hname : name.length ≤ 59) (hout : ∀ p ∈ out, p.1.length ≤ 58) :
    ∀ p ∈ flattenVal x name out, p.1.length ≤ 58 := by
  have hdrop : name.dropLast.length ≤ 58 := by
    rw [List.length_dropLast]; omega
  cases x with
  | obj fields =>
    simp only [flattenVal]
    exact flattenFields_keys_le fields name out hout
  | arr items =>
    simp only [flattenVal]
    exact flatSet_keys_le out name.dropLast _ 58 hout hdrop
  | null =>
    simp only [flattenVal]
    split
    · exact hout
    · exact flatSet_keys_le out name.dropLast _ 58 hout hdrop
  | bool b =>
    simp only [flattenVal]
    split
    · exact hout
    · exact flatSet_keys_le out name.dropLast _ 58 hout hdrop
  | num n =>
    simp only [flattenVal]
    split
    · exact hout
    · exact flatSet_keys_le out name.dropLast _ 58 hout hdrop
  | str s =>
    simp only [flattenVal]
    split
    · exact hout
    · exact flatSet_keys_le out name.dropLast _ 58 hout hdrop

theorem flattenFields_keys_le (fields : List (Str × JValue)) (name : Str) (out : FlatMap)
    (hout : ∀ p ∈ out, p.1.length ≤ 58) :
    ∀ p ∈ flattenFields fields name out, p.1.length ≤ 58 := by
  cases fields with
  | nil => simpa only [flattenFields] using hout
  | cons av rest =>
    obtain ⟨a, v⟩ := av
    simp only [flattenFields]
    exact flattenFields_keys_le rest name _
      (flattenVal_keys_le v _ out (truncName_le _) hout)

end

/-- C10: for every input the flattener handles without the `json_data`
fallback (in this pure model the traversal is total, so that is every input),
every key of the returned mapping — the full flattened column name, at every
nesting depth — has length at most 58. -/
theorem C10_flatten_key_length (x : JValue) :
    (flatten_json x).all (fun p => p.1.length ≤ 58) = true := by
  rw [List.all_eq_true]
  intro p hp
  simpa using flattenVal_keys_le x [] [] (by simp) (by simp) p hp

theorem memFind_memSet (mem : List (Str × MemEntry)) (path : Str) (e : MemEntry) :
    memFind (memSet mem path e) path = some e := by
  unfold memFind memSet
  split
  · rename_i hany
    induction mem with
    | nil => simp at hany
    | cons q rest ih =>
      by_cases hq : (q.1 == path) = true
      · rw [List.map_cons, if_pos hq, List.find?_cons_of_pos _ (by simp)]
        simp
      · have hq' : (q.1 == path) = false := Bool.eq_false_iff.mpr hq
        simp only [List.any_cons, hq', Bool.false_or] at hany
        rw [List.map_cons, if_neg hq, List.find?_cons_of_neg _ (by simp [hq'])]
        exact ih hany
  · rename_i hany
    rw [Bool.not_eq_true, List.any_eq_false] at hany
    induction mem with
    | nil =>
      rw [List.nil_append, List.find?_cons_of_pos _ (by simp)]
      simp
    | cons q rest ih =>
      have hq : (q.1 == path) = false := by
        have := hany q (by simp)
        simpa using this
      rw [List.cons_append, List.find?_cons_of_neg _ (by simp [hq])]
      exact ih (fun p hp => hany p (by simp [hp]))

theorem not_imported_of_fresh (st : BronzeState) (path hash : Str)
    (hmem : memFind st.memory path = none)
    (hled : ∀ e ∈ st.ledger, (e.file_path == path) = false) :
    is_file_already_imported st path hash = (st, false) := by
  unfold is_file_already_imported
  rw [hmem]
  have hfind : st.ledger.find? (fun e => e.file_path == path && e.file_hash == hash) = none := by
    rw [List.find?_eq_none]
    intro e he
    simp [hled e he]
  rw [hfind]

theorem update_import_status_fresh (led : List ImportEntry) (mem : List (Str × MemEntry))
    (tbl : List ((Str × Str) × BronzeTable)) (path hash schema table : Str)
    (rc : Nat) (status : Str) (err : Option Str)
    (hled : ∀ e ∈ led, (e.file_path == path) = false) :
    update_import_status ⟨led, mem, tbl⟩ path hash schema table rc status err =
      ⟨led ++ [⟨path, hash, schema, table, rc, status, err⟩],
       memSet mem path ⟨hash, status⟩, tbl⟩ := by
  have hany : led.any (fun e => e.file_path == path) = false := by
    rw [List.any_eq_false]
    intro e he
    simp [hled e he]
  unfold update_import_status
  simp only [hany, Bool.false_eq_true, if_false]

theorem processBlob_fresh_parse (doc : Doc) (st0 : BronzeState) (j : JValue)
    (hparse : doc.parsed = some j)
    (hmem : memFind st0.memory doc.path = none)
    (hled : ∀ e ∈ st0.ledger, (e.file_path == doc.path) = false) :
    ∃ (tbls : List ((Str × Str) × BronzeTable)) (evs : List BEv),
      processBlob doc st0 =
        ({ ledger := st0.ledger ++ [⟨doc.path, doc.content, docSchema doc, docTable doc,
              (normalizeRoot j).length, pstr "success", none⟩],
           memory := memSet st0.memory doc.path ⟨doc.content, pstr "success"⟩,
           tables := tbls }, evs, true) := by
  simp only [processBlob, not_imported_of_fresh st0 doc.path (calculate_file_hash doc.content) hmem hled,
    hparse, Bool.false_eq_true, if_false]
  split
  · exact ⟨_, _, by rw [update_import_status_fresh st0.ledger st0.memory _ _ _ _ _ _ _ _ hled]; rfl⟩
  · exact ⟨_, _, by rw [update_import_status_fresh st0.ledger st0.memory _ _ _ _ _ _ _ _ hled]; rfl⟩

theorem processBlob_skip (doc : Doc) (st : BronzeState)
    (hmem : memFind st.memory doc.path = some ⟨doc.content, pstr "success"⟩) :
    processBlob doc st = (st, [], true) := by
  have himp : is_file_already_imported st doc.path (calculate_file_hash doc.content) = (st, true) := by
    unfold is_file_already_imported
    rw [hmem]
    simp [calculate_file_hash]
  simp only [processBlob, himp, if_pos]

/-- C4 (amended): re-ingesting the same (path, bytes) pair after a first
ingestion recorded as success is a no-op: the second call performs no table
drop/creation/insert, leaves the state (including the single ledger entry for
the path, with its recorded row count) unchanged, and returns `True` — the
same value a full import returns, so the skip is not distinguishable from the
return value. -/
theorem C4_reingest_same_bytes_noop (doc : Doc) (st0 : BronzeState) (j : JValue)
    (hparse : doc.parsed = some j)
    (hmem : memFind st0.memory doc.path = none)
    (hled : ∀ e ∈ st0.ledger, (e.file_path == doc.path) = false) :
    (processBlob doc st0).2.2 = true ∧
    ((processBlob doc st0).1.ledger.filter (fun e => e.file_path == doc.path)).length = 1 ∧
    (∀ e ∈ (processBlob doc st0).1.ledger, (e.file_path == doc.path) = true →
      e.status = pstr "success" ∧ e.row_count = (normalizeRoot j).length) ∧
    processBlob doc (processBlob doc st0).1 = ((processBlob doc st0).1, [], true) := by
  obtain ⟨tbls, evs, heq⟩ := processBlob_fresh_parse doc st0 j hparse hmem hled
  rw [heq]
  refine ⟨rfl, ?_, ?_, ?_⟩
  · rw [List.filter_append]
    have h0 : st0.ledger.filter (fun e => e.file_path == doc.path) = [] := by
      rw [List.filter_eq_nil_iff]
      intro e he
      simp [hled e he]
    rw [h0]
    simp
  · intro e he hpe
    rcases List.mem_append.mp he with h | h
    · exact absurd hpe (by simp [hled e h])
    · simp only [List.mem_singleton] at h
      subst h
      exact ⟨rfl, rfl⟩
  · exact processBlob_skip doc _ (memFind_memSet st0.memory doc.path _)

/-- C4 witness: the idempotency theorem at a concrete two-item document. -/
theorem C4_witness :
    (processBlob importDocA bronzeInit).2.2 = true ∧
    ((processBlob importDocA bronzeInit).1.ledger.filter
        (fun e => e.file_path == importDocA.path)).length = 1 ∧
    (∀ e ∈ (processBlob importDocA bronzeInit).1.ledger,
      (e.file_path == importDocA.path) = true →
      e.status = pstr "success" ∧
      e.row_count = (normalizeRoot (.arr [.obj [(pstr "name", .str (pstr "mage hand"))],
        .obj [(pstr "name", .str (pstr "fireball")), (pstr "level", .num 3)]])).length) ∧
    processBlob importDocA (processBlob importDocA bronzeInit).1 =
      ((processBlob importDocA bronzeInit).1, [], true) :=
  C4_reingest_same_bytes_noop importDocA bronzeInit _ rfl rfl
    (fun e he => by simp [bronzeInit] at he)

/-- C4 counterexample (for the "return value indicates skipped" part of the
claim): the second, skipping call returns exactly the same value (`True`) as
the first, fully-importing call — `process_blob`'s return value carries no
skip indication. -/
theorem C4_counterexample :
    (processBlob importDocA bronzeInit).2.2 = true ∧
    (processBlob importDocA (processBlob importDocA bronzeInit).1).2.1 = [] ∧
    (processBlob importDocA (processBlob importDocA bronzeInit).1).2.2 =
      (processBlob importDocA bronzeInit).2.2 := by
  decide

theorem typeRank_of_text (s : Str) (h : upperStr s = pstr "TEXT") : typeRank s = 3 := by
  unfold typeRank
  rw [if_pos h]

theorem typeRank_of_jsonb (s : Str) (h : upperStr s = pstr "JSONB") : typeRank s = 2 := by
  unfold typeRank
  rw [if_neg (by rw [h]; decide), if_pos h]

theorem typeRank_of_bigint (s : Str) (h : upperStr s = pstr "BIGINT") : typeRank s = 1 := by
  unfold typeRank
  rw [if_neg (by rw [h]; decide), if_neg (by rw [h]; decide), if_pos h]

theorem typeRank_of_integer (s : Str) (h : upperStr s = pstr "INTEGER") : typeRank s = 0 := by
  unfold typeRank
  rw [if_neg (by rw [h]; decide), if_neg (by rw [h]; decide), if_neg (by rw [h]; decide)]

theorem mergeColType_canon (cur new : Str) (hc : canonicalType cur) (hn : canonicalType new) :
    mergeColType cur new = canonOfRank (max (typeRank cur) (typeRank new)) := by
  unfold mergeColType
  rcases hc with hc | hc | hc | hc <;> rcases hn with hn | hn | hn | hn
  · rw [typeRank_of_text _ hc, typeRank_of_text _ hn, hc, hn]
    rw [if_pos (by decide)]
    decide
  · rw [typeRank_of_text _ hc, typeRank_of_jsonb _ hn, hc, hn]
    rw [if_pos (by decide)]
    decide
  · rw [typeRank_of_text _ hc, typeRank_of_integer _ hn, hc, hn]
    rw [if_pos (by decide)]
    decide
  · rw [typeRank_of_text _ hc, typeRank_of_bigint _ hn, hc, hn]
    rw [if_pos (by decide)]
    decide
  · rw [typeRank_of_jsonb _ hc, typeRank_of_text _ hn, hc, hn]
    rw [if_pos (by decide)]
    decide
  · rw [typeRank_of_jsonb _ hc, typeRank_of_jsonb _ hn, hc, hn]
    rw [if_neg (by decide), if_pos (by decide)]
    decide
  · rw [typeRank_of_jsonb _ hc, typeRank_of_integer _ hn, hc, hn]
    rw [if_neg (by decide), if_pos (by decide)]
    decide
  · rw [typeRank_of_jsonb _ hc, typeRank_of_bigint _ hn, hc, hn]
    rw [if_neg (by decide), if_pos (by decide)]
    decide
  · rw [typeRank_of_integer _ hc, typeRank_of_text _ hn, hc, hn]
    rw [if_pos (by decide)]
    decide
  · rw [typeRank_of_integer _ hc, typeRank_of_jsonb _ hn, hc, hn]
    rw [if_neg (by decide), if_pos (by decide)]
    decide
  · rw [typeRank_of_integer _ hc, typeRank_of_integer _ hn, hc, hn]
    rw [if_neg (by decide), if_neg (by decide), if_pos (by decide), if_neg (by decide)]
    decide
  · rw [typeRank_of_integer _ hc, typeRank_of_bigint _ hn, hc, hn]
    rw [if_neg (by decide), if_neg (by decide), if_pos (by decide), if_pos (by decide)]
    decide
  · rw [typeRank_of_bigint _ hc, typeRank_of_text _ hn, hc, hn]
    rw [if_pos (by decide)]
    decide
  · rw [typeRank_of_bigint _ hc, typeRank_of_jsonb _ hn, hc, hn]
    rw [if_neg (by decide), if_pos (by decide)]
    decide
  · rw [typeRank_of_bigint _ hc, typeRank_of_integer _ hn, hc, hn]
    rw [if_neg (by decide), if_neg (by decide), if_pos (by decide), if_pos (by decide)]
    decide
  · rw [typeRank_of_bigint _ hc, typeRank_of_bigint _ hn, hc, hn]
    rw [if_neg (by decide), if_neg (by decide), if_pos (by decide), if_pos (by decide)]
    decide

instance decCanonicalType (s : Str) : Decidable (canonicalType s) := by
  unfold canonicalType
  infer_instance

theorem typeRank_le (s : Str) : typeRank s ≤ 3 := by
  unfold typeRank
  split_ifs <;> omega

theorem canonOfRank_canonical (r : Nat) (hr : r ≤ 3) : canonicalType (canonOfRank r) := by
  interval_cases r <;> decide

theorem typeRank_canonOfRank (r : Nat) (hr : r ≤ 3) : typeRank (canonOfRank r) = r := by
  interval_cases r <;> decide

theorem mergeColType_canonical (cur new : Str) (hc : canonicalType cur)
    (hn : canonicalType new) : canonicalType (mergeColType cur new) := by
  rw [mergeColType_canon cur new hc hn]
  exact canonOfRank_canonical _ (max_le (typeRank_le cur) (typeRank_le new))

theorem mergeColType_comm (t1 t2 : Str) (h1 : canonicalType t1) (h2 : canonicalType t2) :
    mergeColType t1 t2 = mergeColType t2 t1 := by
  rw [mergeColType_canon t1 t2 h1 h2, mergeColType_canon t2 t1 h2 h1, Nat.max_comm]

theorem mergeColType_swap (v t1 t2 : Str) (hv : canonicalType v)
    (h1 : canonicalType t1) (h2 : canonicalType t2) :
    mergeColType (mergeColType v t1) t2 = mergeColType (mergeColType v t2) t1 := by
  have hm1 := mergeColType_canonical v t1 hv h1
  have hm2 := mergeColType_canonical v t2 hv h2
  rw [mergeColType_canon _ t2 hm1 h2, mergeColType_canon _ t1 hm2 h1,
    mergeColType_canon v t1 hv h1, mergeColType_canon v t2 hv h2,
    typeRank_canonOfRank _ (max_le (typeRank_le v) (typeRank_le t1)),
    typeRank_canonOfRank _ (max_le (typeRank_le v) (typeRank_le t2))]
  congr 1
  omega

theorem colFind_isSome_iff_any (m : ColMap) (c : Str) :
    (colFind m c).isSome = m.any (fun p => p.1 == c) := by
  induction m with
  | nil => rfl
  | cons q rest ih =>
    unfold colFind at ih ⊢
    by_cases hq : (q.1 == c) = true
    · rw [List.find?_cons_of_pos _ (by simpa using hq)]
      simp [hq]
    · have hq' := Bool.eq_false_iff.mpr hq
      rw [List.find?_cons_of_neg _ (by simp [hq'])]
      simp only [List.any_cons, hq', Bool.false_or]
      exact ih

theorem colFind_map_update_self (m : ColMap) (c v : Str) :
    m.any (fun p => p.1 == c) = true →
    colFind (m.map (fun p => if (p.1 == c) = true then (c, v) else p)) c = some v := by
  induction m with
  | nil => intro hc; simp at hc
  | cons q rest ih =>
    intro hc
    by_cases hq : (q.1 == c) = true
    · unfold colFind
      rw [List.map_cons, if_pos hq, List.find?_cons_of_pos _ (by simp)]
      rfl
    · have hq' := Bool.eq_false_iff.mpr hq
      simp only [List.any_cons, hq', Bool.false_or] at hc
      unfold colFind at ih ⊢
      rw [List.map_cons, if_neg hq, List.find?_cons_of_neg _ (by simp [hq'])]
      exact ih hc

theorem colFind_map_update_other (m : ColMap) (c v k : Str) (hk : ¬(k = c)) :
    colFind (m.map (fun p => if (p.1 == c) = true then (c, v) else p)) k = colFind m k := by
  have hck : (c == k) = false := by
    rw [beq_eq_false_iff_ne]
    exact fun h => hk h.symm
  induction m with
  | nil => rfl
  | cons q rest ih =>
    unfold colFind at ih ⊢
    by_cases hq : (q.1 == c) = true
    · have hqk : (q.1 == k) = false := by
        rw [beq_eq_false_iff_ne]
        intro h
        exact hk (h ▸ beq_iff_eq.mp hq)
      rw [List.map_cons, if_pos hq, List.find?_cons_of_neg _ (by simp [hck]),
        List.find?_cons_of_neg _ (by simp [hqk])]
      exact ih
    · by_cases hqk : (q.1 == k) = true
      · rw [List.map_cons, if_neg hq, List.find?_cons_of_pos _ (by simpa using hqk),
          List.find?_cons_of_pos _ (by simpa using hqk)]
      · have hqk2 := Bool.eq_false_iff.mpr hqk
        rw [List.map_cons, if_neg hq, List.find?_cons_of_neg _ (by simp [hqk2]),
          List.find?_cons_of_neg _ (by simp [hqk2])]
        exact ih

theorem colFind_addColumn (m : ColMap) (c t k : Str) :
    colFind (addColumn m c t) k =
      if k = c then some (mergeOpt (colFind m c) t) else colFind m k := by
  cases hfind : colFind m c with
  | some cur =>
    have heq : addColumn m c t = colUpdate m c (mergeColType cur t) := by
      unfold addColumn
      rw [hfind]
    have hany : m.any (fun p => p.1 == c) = true := by
      rw [← colFind_isSome_iff_any, hfind]
      rfl
    rw [heq]
    unfold colUpdate
    rw [if_pos hany]
    by_cases hk : k = c
    · subst hk
      rw [if_pos rfl, colFind_map_update_self m k _ hany]
      rfl
    · rw [if_neg hk, colFind_map_update_other m c _ k hk]
  | none =>
    have heq : addColumn m c t = m ++ [(c, t)] := by
      unfold addColumn
      rw [hfind]
    have hf : List.find? (fun p => p.1 == c) m = none := by
      have := hfind
      unfold colFind at this
      simpa using this
    rw [heq]
    by_cases hk : k = c
    · subst hk
      rw [if_pos rfl]
      unfold colFind
      rw [List.find?_append, hf, Option.none_or,
        List.find?_cons_of_pos _ (by simp)]
      simp [mergeOpt]
    · rw [if_neg hk]
      unfold colFind
      rw [List.find?_append]
      have hsing : List.find? (fun p => p.1 == k) [(c, t)] = none := by
        rw [List.find?_eq_none]
        intro x hx
        simp only [List.mem_singleton] at hx
        subst hx
        have hck : (c == k) = false := by
          rw [beq_eq_false_iff_ne]
          exact fun h => hk h.symm
        simp [hck]
      rw [hsing]
      cases List.find? (fun p => p.1 == k) m <;> rfl

theorem colFind_colStep (m : ColMap) (p : Str × Str) (k : Str) :
    colFind (colStep m p) k =
      if (p.1 == pstr "id") = true then colFind m k
      else if k = p.1 then some (mergeOpt (colFind m p.1) p.2) else colFind m k := by
  unfold colStep
  split
  · rfl
  · rw [colFind_addColumn]

theorem colFind_canonical (m : ColMap) (hm : allCanonical m) (c : Str) :
    ∀ v, colFind m c = some v → canonicalType v := by
  intro v hv
  unfold colFind at hv
  rcases Option.map_eq_some'.mp hv with ⟨q, hq, hqv⟩
  subst hqv
  exact hm q (List.mem_of_find?_eq_some hq)

theorem mergeOpt_canonical (o : Option Str) (t : Str)
    (ho : ∀ v, o = some v → canonicalType v) (ht : canonicalType t) :
    canonicalType (mergeOpt o t) := by
  cases o with
  | none => exact ht
  | some cur => exact mergeColType_canonical cur t (ho cur rfl) ht

theorem allCanonical_append_single (m : ColMap) (c t : Str)
    (hm : allCanonical m) (ht : canonicalType t) : allCanonical (m ++ [(c, t)]) := by
  intro q hq
  rcases List.mem_append.mp hq with h | h
  · exact hm q h
  · simp only [List.mem_singleton] at h
    subst h
    exact ht

theorem allCanonical_colStep (m : ColMap) (p : Str × Str)
    (hm : allCanonical m) (hp : canonicalType p.2) : allCanonical (colStep m p) := by
  unfold colStep
  split
  · exact hm
  · cases hfind : colFind m p.1 with
    | none =>
      have heq : addColumn m p.1 p.2 = m ++ [(p.1, p.2)] := by
        unfold addColumn
        rw [hfind]
      rw [heq]
      exact allCanonical_append_single m p.1 p.2 hm hp
    | some cur =>
      have hcur : canonicalType cur := colFind_canonical m hm p.1 cur hfind
      have heq : addColumn m p.1 p.2 = colUpdate m p.1 (mergeColType cur p.2) := by
        unfold addColumn
        rw [hfind]
      rw [heq]
      unfold colUpdate
      by_cases hany : (m.any fun r => r.1 == p.1) = true
      · rw [if_pos hany]
        intro q hq
        rcases List.mem_map.mp hq with ⟨r, hr, hre⟩
        by_cases hrc : (r.1 == p.1) = true
        · rw [if_pos hrc] at hre
          subst hre
          exact mergeColType_canonical cur p.2 hcur hp
        · rw [if_neg hrc] at hre
          subst hre
          exact hm r hr
      · rw [if_neg hany]
        exact allCanonical_append_single m p.1 _ hm (mergeColType_canonical cur p.2 hcur hp)


theorem colStep_comm (m : ColMap) (p q : Str × Str) (hm : allCanonical m)
    (hp : canonicalType p.2) (hq : canonicalType q.2) (k : Str) :
    colFind (colStep (colStep m p) q) k = colFind (colStep (colStep m q) p) k := by
  by_cases hpid : (p.1 == pstr "id") = true
  · have hid : ∀ x : ColMap, colStep x p = x := by
      intro x
      unfold colStep
      rw [if_pos hpid]
    rw [hid, hid]
  · by_cases hqid : (q.1 == pstr "id") = true
    · have hid : ∀ x : ColMap, colStep x q = x := by
        intro x
        unfold colStep
        rw [if_pos hqid]
      rw [hid, hid]
    · have hpid' := Bool.eq_false_iff.mpr hpid
      have hqid' := Bool.eq_false_iff.mpr hqid
      simp only [colFind_colStep, hpid', hqid', Bool.false_eq_true, if_false]
      by_cases hkq : k = q.1
      · by_cases hkp : k = p.1
        · -- k = p.1 = q.1 : both updates hit the same key
          have hpq : q.1 = p.1 := by rw [← hkq, hkp]
          rw [if_pos hkq, if_pos hkp, if_pos hpq, if_pos hpq.symm]
          cases hv : colFind m p.1 with
          | none =>
            rw [hpq, hv]
            simp only [mergeOpt]
            rw [mergeColType_comm p.2 q.2 hp hq]
          | some cur =>
            have hcur := colFind_canonical m hm p.1 cur hv
            rw [hpq, hv]
            simp only [mergeOpt]
            rw [mergeColType_swap cur p.2 q.2 hcur hp hq]
        · -- k = q.1 ≠ p.1
          have hqp : ¬(q.1 = p.1) := fun h => hkp (hkq.trans h)
          have hpq : ¬(p.1 = q.1) := fun h => hqp h.symm
          rw [if_pos hkq, if_neg hkp, if_pos hkq, if_neg hqp]
      · by_cases hkp : k = p.1
        · have hpq : ¬(p.1 = q.1) := fun h => hkq (hkp.trans h)
          rw [if_pos hkp, if_neg hkq, if_pos hkp, if_neg hpq]
        · rw [if_neg hkq, if_neg hkp, if_neg hkp, if_neg hkq]

theorem foldl_colStep_congr (l : List (Str × Str)) (m1 m2 : ColMap)
    (h : ∀ k, colFind m1 k = colFind m2 k) :
    ∀ k, colFind (l.foldl colStep m1) k = colFind (l.foldl colStep m2) k := by
  induction l generalizing m1 m2 with
  | nil => exact h
  | cons p rest ih =>
    simp only [List.foldl_cons]
    apply ih
    intro k
    simp only [colFind_colStep, h]

theorem allCanonical_foldl (l : List (Str × Str)) (m : ColMap)
    (hm : allCanonical m) (hl : ∀ p ∈ l, canonicalType p.2) :
    allCanonical (l.foldl colStep m) := by
  induction l generalizing m with
  | nil => exact hm
  | cons p rest ih =>
    simp only [List.foldl_cons]
    exact ih (colStep m p) (allCanonical_colStep m p hm (hl p (by simp)))
      (fun r hr => hl r (by simp [hr]))

theorem foldl_colStep_perm (l1 l2 : List (Str × Str)) (hperm : l1.Perm l2) :
    ∀ m : ColMap, allCanonical m → (∀ p ∈ l1, canonicalType p.2) →
    ∀ k, colFind (l1.foldl colStep m) k = colFind (l2.foldl colStep m) k := by
  induction hperm with
  | nil => intro m hm hl k; rfl
  | cons x h12 ih =>
    intro m hm hl k
    simp only [List.foldl_cons]
    exact ih (colStep m x) (allCanonical_colStep m x hm (hl x (by simp)))
      (fun r hr => hl r (by simp [hr])) k
  | swap x y l =>
    intro m hm hl k
    simp only [List.foldl_cons]
    exact foldl_colStep_congr l _ _
      (colStep_comm m y x hm (hl y (by simp)) (hl x (by simp))) k
  | trans h12 h23 ih12 ih23 =>
    intro m hm hl k
    rw [ih12 m hm hl k]
    exact ih23 m hm (fun r hr => hl r (h12.mem_iff.mpr hr)) k

/-- C6 (amended): when every contributing column type is one of the four
canonical silver types (TEXT, JSONB, INTEGER, BIGINT, in any letter case),
the reconciled column-name-to-type mapping is the same regardless of the
order in which the tables are processed. For arbitrary types it is not
(see the counterexample). -/
theorem C6_reconciler_order_oblivious (tables1 tables2 : List (List (Str × Str)))
    (hperm : tables1.Perm tables2)
    (hcanon : ∀ cols ∈ tables1, ∀ p ∈ cols, canonicalType p.2) (k : Str) :
    colFind (collect_all_columns_from_tables tables1) k =
      colFind (collect_all_columns_from_tables tables2) k := by
  have hrw : ∀ ts : List (List (Str × Str)),
      collect_all_columns_from_tables ts = ts.flatten.foldl colStep [] := by
    intro ts
    unfold collect_all_columns_from_tables collectColumnsOfTable
    rw [List.foldl_flatten]
  rw [hrw, hrw]
  refine foldl_colStep_perm _ _ (hperm.flatten) [] (fun p hp => absurd hp (by simp)) ?_ k
  intro p hp
  rcases List.mem_flatten.mp hp with ⟨cols, hcols, hpc⟩
  exact hcanon cols hcols p hpc

/-- C6 witness: the order-obliviousness theorem at a concrete pair of
single-column tables. -/
theorem C6_witness :
    colFind (collect_all_columns_from_tables
        [[(pstr "a", pstr "integer")], [(pstr "a", pstr "text")]]) (pstr "a") =
      colFind (collect_all_columns_from_tables
        [[(pstr "a", pstr "text")], [(pstr "a", pstr "integer")]]) (pstr "a") :=
  C6_reconciler_order_oblivious _ _ (by decide) (by decide) (pstr "a")

theorem hash_some_accessible (ts : List SrcTable) (h : Str)
    (hh : calculate_tables_hash ts = some h) : ∀ t ∈ ts, t.accessible = true := by
  unfold calculate_tables_hash at hh
  split at hh
  · rename_i hall
    exact fun t ht => List.all_eq_true.mp hall t ht
  · exact absurd hh (by simp)

theorem create_fusion_table_skip (bron : List SrcTable) (st : SilverState)
    (schema tablePre fusionName h : Str)
    (hhash : calculate_tables_hash (bron.filter (fun u => startsWithStr tablePre u.name)) = some h)
    (hmatch : is_transformation_needed st.ledger schema fusionName (pstr "fusion") h = false) :
    create_fusion_table bron st schema tablePre fusionName = (st, []) := by
  simp only [create_fusion_table, hhash, hmatch]
  split
  · rfl
  · simp

theorem copy_table_skip (bron : List SrcTable) (st : SilverState)
    (schema tname h : Str) (t : SrcTable)
    (hfind : bron.find? (fun u => u.name == tname) = some t)
    (hacc : t.accessible = true)
    (hhash : calculate_tables_hash [t] = some h)
    (hmatch : is_transformation_needed st.ledger schema tname (pstr "copy") h = false) :
    copy_table bron st schema tname = (st, []) := by
  simp only [copy_table, hfind, hacc, hhash, hmatch]
  simp

theorem create_fusion_table_open (bron : List SrcTable) (st : SilverState)
    (schema tablePre fusionName h : Str)
    (hne : (bron.filter (fun u => startsWithStr tablePre u.name)).isEmpty = false)
    (hhash : calculate_tables_hash (bron.filter (fun u => startsWithStr tablePre u.name)) = some h)
    (hneeded : is_transformation_needed st.ledger schema fusionName (pstr "fusion") h = true) :
    create_fusion_table bron st schema tablePre fusionName =
      fusionBody (bron.filter (fun u => startsWithStr tablePre u.name))
        { st with ledger := (update_transformation_status st.ledger schema
            ((bron.filter (fun u => startsWithStr tablePre u.name)).map (fun u => u.name))
            schema fusionName (pstr "fusion") h 0 (pstr "in_progress") none) }
        schema fusionName (some h) := by
  simp only [create_fusion_table, hne, hhash, hneeded]
  simp

theorem copy_table_open (bron : List SrcTable) (st : SilverState)
    (schema tname h : Str) (t : SrcTable)
    (hfind : bron.find? (fun u => u.name == tname) = some t)
    (hacc : t.accessible = true)
    (hhash : calculate_tables_hash [t] = some h)
    (hneeded : is_transformation_needed st.ledger schema tname (pstr "copy") h = true) :
    copy_table bron st schema tname =
      copyBody t
        { st with ledger := (update_transformation_status st.ledger schema [tname]
            schema tname (pstr "copy") h 0 (pstr "in_progress") none) }
        schema tname (some h) := by
  simp only [copy_table, hfind, hacc, hhash, hneeded]
  simp

theorem fusionBody_success (preT : List SrcTable) (st1 : SilverState)
    (schema fusionName h : Str)
    (hacc : ∀ t ∈ preT, t.accessible = true)
    (hne : preT.isEmpty = false)
    (hcols : (collect_all_columns_from_tables (preT.map (fun t => t.columns))).isEmpty = false) :
    fusionBody preT st1 schema fusionName (some h) =
      ({ ledger := (update_transformation_status st1.ledger schema
            (preT.map (fun t => t.name)) schema fusionName (pstr "fusion") h
            (fusionRowsOf ((collect_all_columns_from_tables
              (preT.map (fun t => t.columns))).map (fun p => p.1)) preT).length
            (pstr "success") none),
         fusions := (silDrop st1 (schema, fusionName)).fusions ++
           [((schema, fusionName),
             (collect_all_columns_from_tables (preT.map (fun t => t.columns)),
              fusionRowsOf ((collect_all_columns_from_tables
                (preT.map (fun t => t.columns))).map (fun p => p.1)) preT))],
         copies := (silDrop st1 (schema, fusionName)).copies },
       [SEv.drop schema fusionName, SEv.create schema fusionName] ++
         (preT.filter (fun t => !(nonIdCols t).isEmpty)).map
           (fun t => SEv.insertFrom schema fusionName t.name)) := by
  have hfilter : preT.filter (fun t => t.accessible) = preT :=
    List.filter_eq_self.mpr (fun t ht => hacc t ht)
  simp only [fusionBody, hfilter, hne, hcols]
  simp [silDrop]

theorem copyBody_success (t : SrcTable) (st1 : SilverState) (schema tname h : Str)
    (hcols : t.columns.isEmpty = false) :
    copyBody t st1 schema tname (some h) =
      ({ ledger := (update_transformation_status st1.ledger schema [tname]
            schema tname (pstr "copy") h t.rows.length (pstr "success") none),
         fusions := (silDrop st1 (schema, tname)).fusions,
         copies := (silDrop st1 (schema, tname)).copies ++
           [((schema, tname), (t.columns, t.rows))] },
       [SEv.drop schema tname, SEv.create schema tname, SEv.insertFrom schema tname tname]) := by
  simp only [copyBody, hcols]
  simp [silDrop]

theorem transFind_update (ledger : List TransEntry) (schema : Str) (srcTables : List Str)
    (targetSchema target ttype hash : Str) (rc : Nat) (status : Str) (err : Option Str) :
    transFind (update_transformation_status ledger schema srcTables targetSchema target
        ttype hash rc status err) schema target ttype =
      some ⟨schema, joinWith [','] srcTables, targetSchema, target, ttype, hash, rc,
        status, err⟩ := by
  unfold transFind update_transformation_status
  split
  · rename_i hany
    induction ledger with
    | nil => simp at hany
    | cons q rest ih =>
      by_cases hq : (q.source_schema == schema && q.target_table == target &&
          q.transformation_type == ttype) = true
      · rw [List.map_cons, if_pos hq, List.find?_cons_of_pos _ (by simp)]
      · have hq2 := Bool.eq_false_iff.mpr hq
        simp only [List.any_cons, hq2, Bool.false_or] at hany
        rw [List.map_cons, if_neg hq, List.find?_cons_of_neg _ (by simp [hq2])]
        exact ih hany
  · rename_i hany
    rw [Bool.not_eq_true, List.any_eq_false] at hany
    induction ledger with
    | nil =>
      rw [List.nil_append, List.find?_cons_of_pos _ (by simp)]
    | cons q rest ih =>
      have hq : (q.source_schema == schema && q.target_table == target &&
          q.transformation_type == ttype) = false := by
        have := hany q (by simp)
        simpa using this
      rw [List.cons_append, List.find?_cons_of_neg _ (by simp [hq])]
      exact ih (fun p hp => hany p (by simp [hp]))

theorem fusionRowsOf_mem (cols : List Str) (ts : List SrcTable) (fr : FusionRow)
    (hfr : fr ∈ fusionRowsOf cols ts) :
    ∃ t ∈ ts, ∃ sr ∈ t.rows, fr.source_table = t.name ∧ fr.original_id = sr.rid := by
  unfold fusionRowsOf at hfr
  rcases List.mem_flatMap.mp hfr with ⟨t, ht, hmem⟩
  split at hmem
  · simp at hmem
  · rcases List.mem_map.mp hmem with ⟨sr, hsr, hfr2⟩
    subst hfr2
    exact ⟨t, ht, sr, hsr, rfl, rfl⟩

theorem fusionRowsOf_length (cols : List Str) (ts : List SrcTable)
    (hnonid : ∀ t ∈ ts, (nonIdCols t).isEmpty = false) :
    (fusionRowsOf cols ts).length = (ts.map (fun t => t.rows.length)).sum := by
  induction ts with
  | nil => rfl
  | cons t rest ih =>
    unfold fusionRowsOf at ih ⊢
    rw [List.flatMap_cons, List.length_append]
    simp only [hnonid t (by simp), Bool.false_eq_true, if_false]
    rw [List.length_map, List.map_cons, List.sum_cons,
      ih (fun u hu => hnonid u (by simp [hu]))]

theorem fusionRowsOf_countP (cols : List Str) (ts : List SrcTable)
    (hnodup : (ts.map (fun t => t.name)).Nodup)
    (hnonid : ∀ t ∈ ts, (nonIdCols t).isEmpty = false) :
    ∀ t ∈ ts, (fusionRowsOf cols ts).countP (fun fr => fr.source_table == t.name) =
      t.rows.length := by
  induction ts with
  | nil => intro t ht; simp at ht
  | cons u rest ih =>
    intro t ht
    simp only [List.map_cons, List.nodup_cons] at hnodup
    have hrest : fusionRowsOf cols (u :: rest) =
        u.rows.map (mkFusionRow cols (nonIdCols u) u.name) ++ fusionRowsOf cols rest := by
      unfold fusionRowsOf
      rw [List.flatMap_cons]
      simp only [hnonid u (by simp), Bool.false_eq_true, if_false]
    rw [hrest, List.countP_append]
    rcases List.mem_cons.mp ht with hteq | htail
    · subst hteq
      have h1 : (t.rows.map (mkFusionRow cols (nonIdCols t) t.name)).countP
          (fun fr => fr.source_table == t.name) = t.rows.length := by
        rw [List.countP_map]
        have hconst : ((fun fr : FusionRow => fr.source_table == t.name) ∘
            mkFusionRow cols (nonIdCols t) t.name) = fun _ => true := by
          funext sr
          simp [mkFusionRow]
        rw [hconst]
        simp
      have h2 : (fusionRowsOf cols rest).countP (fun fr => fr.source_table == t.name) = 0 := by
        rw [List.countP_eq_zero]
        intro fr hfr
        rcases fusionRowsOf_mem cols rest fr hfr with ⟨v, hv, sr, hsr, hname, hid⟩
        simp only [hname, beq_iff_eq]
        intro hvu
        exact hnodup.1 (hvu ▸ List.mem_map.mpr ⟨v, hv, rfl⟩)
      rw [h1, h2]
      omega
    · have hune : (u.name == t.name) = false := by
        rw [beq_eq_false_iff_ne]
        intro hun
        exact hnodup.1 (hun ▸ List.mem_map.mpr ⟨t, htail, rfl⟩)
      have h1 : (u.rows.map (mkFusionRow cols (nonIdCols u) u.name)).countP
          (fun fr => fr.source_table == t.name) = 0 := by
        rw [List.countP_eq_zero]
        intro fr hfr
        rcases List.mem_map.mp hfr with ⟨sr, hsr, hfr2⟩
        subst hfr2
        simp [mkFusionRow, hune]
      rw [h1, ih hnodup.2 (fun v hv => hnonid v (by simp [hv])) t htail]
      omega

theorem silverFusionTable_after (st1 : SilverState) (led : List TransEntry) (k : Str × Str)
    (v : ColMap × List FusionRow)
    (cop : List ((Str × Str) × (List (Str × Str) × List SrcRow))) :
    silverFusionTable ⟨led, (silDrop st1 k).fusions ++ [(k, v)], cop⟩ k = some v := by
  unfold silverFusionTable silDrop
  rw [List.find?_append]
  have h1 : (st1.fusions.filter (fun p => !(p.1 == k))).find? (fun p => p.1 == k) = none := by
    rw [List.find?_eq_none]
    intro p hp
    have := List.of_mem_filter hp
    simpa using this
  rw [h1, Option.none_or, List.find?_cons_of_pos _ (by simp)]
  rfl

/-- C1 (amended): a fusion or copy operation whose fingerprint is computable
skips entirely — leaving the silver state untouched and executing no drop or
re-create — exactly when the ledger holds an entry for (source schema, target
table, kind) with status success and the current fingerprint; conversely,
when no such matching entry exists and the sources are non-empty, accessible,
and yield at least one reconciled column (copy: at least one column), the
transformation is performed (target dropped and re-created). -/
theorem C1_idempotency_gate (bron : List SrcTable) (st : SilverState)
    (schema tablePre fusionName tname hf hc : Str) (t : SrcTable) :
    (calculate_tables_hash (bron.filter (fun u => startsWithStr tablePre u.name)) = some hf →
      is_transformation_needed st.ledger schema fusionName (pstr "fusion") hf = false →
      create_fusion_table bron st schema tablePre fusionName = (st, [])) ∧
    (bron.find? (fun u => u.name == tname) = some t → t.accessible = true →
      calculate_tables_hash [t] = some hc →
      is_transformation_needed st.ledger schema tname (pstr "copy") hc = false →
      copy_table bron st schema tname = (st, [])) ∧
    ((bron.filter (fun u => startsWithStr tablePre u.name)).isEmpty = false →
      calculate_tables_hash (bron.filter (fun u => startsWithStr tablePre u.name)) = some hf →
      is_transformation_needed st.ledger schema fusionName (pstr "fusion") hf = true →
      (collect_all_columns_from_tables ((bron.filter (fun u => startsWithStr tablePre u.name)).map
        (fun u => u.columns))).isEmpty = false →
      SEv.drop schema fusionName ∈ (create_fusion_table bron st schema tablePre fusionName).2 ∧
      SEv.create schema fusionName ∈ (create_fusion_table bron st schema tablePre fusionName).2) ∧
    (bron.find? (fun u => u.name == tname) = some t → t.accessible = true →
      calculate_tables_hash [t] = some hc →
      is_transformation_needed st.ledger schema tname (pstr "copy") hc = true →
      t.columns.isEmpty = false →
      SEv.drop schema tname ∈ (copy_table bron st schema tname).2 ∧
      SEv.create schema tname ∈ (copy_table bron st schema tname).2) := by
  refine ⟨?_, ?_, ?_, ?_⟩
  · intro hhash hmatch
    exact create_fusion_table_skip bron st schema tablePre fusionName hf hhash hmatch
  · intro hfind hacc hhash hmatch
    exact copy_table_skip bron st schema tname hc t hfind hacc hhash hmatch
  · intro hne hhash hneeded hcols
    rw [create_fusion_table_open bron st schema tablePre fusionName hf hne hhash hneeded,
      fusionBody_success _ _ _ _ hf (hash_some_accessible _ hf hhash) hne hcols]
    constructor <;> simp
  · intro hfind hacc hhash hneeded hcols
    rw [copy_table_open bron st schema tname hc t hfind hacc hhash hneeded,
      copyBody_success t _ schema tname hc hcols]
    constructor <;> simp

/-- C1 witness: skip on a matching success entry, perform on a fresh ledger,
at concrete tables. -/
theorem C1_witness :
    create_fusion_table [tSpellsPhb] silverWithEntries (pstr "spells") (pstr "spells_")
        (pstr "fusion_spells") = (silverWithEntries, []) ∧
    copy_table [tSpellsXge] silverWithEntries (pstr "main") (pstr "spells_xge") =
      (silverWithEntries, []) ∧
    SEv.drop (pstr "spells") (pstr "fusion_spells") ∈
      (create_fusion_table [tSpellsPhb] silverInit (pstr "spells") (pstr "spells_")
        (pstr "fusion_spells")).2 ∧
    SEv.drop (pstr "main") (pstr "spells_xge") ∈
      (copy_table [tSpellsXge] silverInit (pstr "main") (pstr "spells_xge")).2 :=
  ⟨(C1_idempotency_gate [tSpellsPhb] silverWithEntries (pstr "spells") (pstr "spells_")
      (pstr "fusion_spells") (pstr "x") (tableInfo tSpellsPhb) (pstr "x") tSpellsPhb).1
      (by decide) (by decide),
   (C1_idempotency_gate [tSpellsXge] silverWithEntries (pstr "main") (pstr "x")
      (pstr "x") (pstr "spells_xge") (pstr "x") (tableInfo tSpellsXge) tSpellsXge).2.1
      (by decide) (by decide) (by decide) (by decide),
   ((C1_idempotency_gate [tSpellsPhb] silverInit (pstr "spells") (pstr "spells_")
      (pstr "fusion_spells") (pstr "x") (tableInfo tSpellsPhb) (pstr "x") tSpellsPhb).2.2.1
      (by decide) (by decide) (by decide) (by decide)).1,
   ((C1_idempotency_gate [tSpellsXge] silverInit (pstr "main") (pstr "x")
      (pstr "x") (pstr "spells_xge") (pstr "x") (tableInfo tSpellsXge) tSpellsXge).2.2.2
      (by decide) (by decide) (by decide) (by decide) (by decide)).1⟩

/-- C1 counterexample (against the unrestricted "if and only if"): copying an
accessible zero-column table finds no matching ledger entry — so the claim
requires the transformation to be performed — yet the operation returns
without dropping or creating anything (it early-returns after marking
`in_progress` because the source has no columns). -/
theorem C1_counterexample :
    transFind silverInit.ledger (pstr "items") (pstr "weird") (pstr "copy") = none ∧
    (copy_table [tNoCols] silverInit (pstr "items") (pstr "weird")).2 = [] := by
  decide

/-- C9 (amended): a fusion or copy run that passes the idempotency gate (and
therefore writes `in_progress`) ends with the ledger entry in a terminal
status (`success` or `error`) provided the operation reaches its write phase:
for fusion, some reconciled column exists; for copy, the source table has
columns. Without those provisos the entry can be left `in_progress` (see the
counterexample). -/
theorem C9_terminal_status (bron : List SrcTable) (st : SilverState)
    (schema tablePre fusionName tname hf hc : Str) (t : SrcTable) :
    ((bron.filter (fun u => startsWithStr tablePre u.name)).isEmpty = false →
      calculate_tables_hash (bron.filter (fun u => startsWithStr tablePre u.name)) = some hf →
      is_transformation_needed st.ledger schema fusionName (pstr "fusion") hf = true →
      (collect_all_columns_from_tables ((bron.filter (fun u => startsWithStr tablePre u.name)).map
        (fun u => u.columns))).isEmpty = false →
      ∃ e, transFind (create_fusion_table bron st schema tablePre fusionName).1.ledger
          schema fusionName (pstr "fusion") = some e ∧
        (e.status = pstr "success" ∨ e.status = pstr "error")) ∧
    (bron.find? (fun u => u.name == tname) = some t → t.accessible = true →
      calculate_tables_hash [t] = some hc →
      is_transformation_needed st.ledger schema tname (pstr "copy") hc = true →
      t.columns.isEmpty = false →
      ∃ e, transFind (copy_table bron st schema tname).1.ledger schema tname (pstr "copy") =
          some e ∧
        (e.status = pstr "success" ∨ e.status = pstr "error")) := by
  constructor
  · intro hne hhash hneeded hcols
    rw [create_fusion_table_open bron st schema tablePre fusionName hf hne hhash hneeded,
      fusionBody_success _ _ _ _ hf (hash_some_accessible _ hf hhash) hne hcols]
    exact ⟨_, transFind_update _ _ _ _ _ _ _ _ _ _, Or.inl rfl⟩
  · intro hfind hacc hhash hneeded hcols
    rw [copy_table_open bron st schema tname hc t hfind hacc hhash hneeded,
      copyBody_success t _ schema tname hc hcols]
    exact ⟨_, transFind_update _ _ _ _ _ _ _ _ _ _, Or.inl rfl⟩

/-- C9 witness: a concrete two-table fusion ends with a terminal status. -/
theorem C9_witness :
    ∃ e, transFind (create_fusion_table [tSpellsPhb, tSpellsXge] silverInit (pstr "spells")
        (pstr "spells_") (pstr "fusion_spells")).1.ledger (pstr "spells")
        (pstr "fusion_spells") (pstr "fusion") = some e ∧
      (e.status = pstr "success" ∨ e.status = pstr "error") :=
  (C9_terminal_status [tSpellsPhb, tSpellsXge] silverInit (pstr "spells") (pstr "spells_")
      (pstr "fusion_spells") (pstr "x")
      (joinWith ['|'] (sortStrs [tableInfo tSpellsPhb, tableInfo tSpellsXge]))
      (pstr "x") tSpellsPhb).1
    (by decide) (by decide) (by decide) (by decide)

/-- C9 counterexample: fusing a table whose only column is `id` marks the
ledger entry `in_progress` and then returns (no columns collected), leaving
the entry `in_progress` at termination, contradicting the claim. -/
theorem C9_counterexample :
    ((transFind (create_fusion_table [tIdOnly] silverInit (pstr "rules") (pstr "rules_")
        (pstr "fusion_rules")).1.ledger (pstr "rules") (pstr "fusion_rules")
        (pstr "fusion")).map (fun e => e.status)) = some (pstr "in_progress") ∧
    (create_fusion_table [tIdOnly] silverInit (pstr "rules") (pstr "rules_")
      (pstr "fusion_rules")).2 = [] := by
  decide

/-- C3: a fusion over catalogued, accessible source tables with distinct
names and at least one non-id column each produces exactly one row per source
row: the fusion row count is the sum of the source row counts, the rows
tagged with each source table's name count exactly that table's rows, and
every fusion row's `original_id` is the id of the source row it came from. -/
theorem C3_fusion_provenance (bron : List SrcTable) (st : SilverState)
    (schema tablePre fusionName hf : Str)
    (hne : (bron.filter (fun u => startsWithStr tablePre u.name)).isEmpty = false)
    (hhash : calculate_tables_hash (bron.filter (fun u => startsWithStr tablePre u.name)) =
      some hf)
    (hneeded : is_transformation_needed st.ledger schema fusionName (pstr "fusion") hf = true)
    (hcols : (collect_all_columns_from_tables
      ((bron.filter (fun u => startsWithStr tablePre u.name)).map
        (fun u => u.columns))).isEmpty = false)
    (hnonid : ∀ u ∈ bron.filter (fun u => startsWithStr tablePre u.name),
      (nonIdCols u).isEmpty = false)
    (hnodup : ((bron.filter (fun u => startsWithStr tablePre u.name)).map
      (fun u => u.name)).Nodup) :
    ∃ cols rows,
      silverFusionTable (create_fusion_table bron st schema tablePre fusionName).1
          (schema, fusionName) = some (cols, rows) ∧
      rows.length = ((bron.filter (fun u => startsWithStr tablePre u.name)).map
        (fun u => u.rows.length)).sum ∧
      (∀ u ∈ bron.filter (fun u => startsWithStr tablePre u.name),
        rows.countP (fun fr => fr.source_table == u.name) = u.rows.length) ∧
      (∀ fr ∈ rows, ∃ u ∈ bron.filter (fun u => startsWithStr tablePre u.name),
        ∃ sr ∈ u.rows, fr.source_table = u.name ∧ fr.original_id = sr.rid) := by
  rw [create_fusion_table_open bron st schema tablePre fusionName hf hne hhash hneeded,
    fusionBody_success _ _ _ _ hf (hash_some_accessible _ hf hhash) hne hcols]
  refine ⟨_, _, silverFusionTable_after _ _ _ _ _, ?_, ?_, ?_⟩
  · exact fusionRowsOf_length _ _ hnonid
  · exact fusionRowsOf_countP _ _ hnodup hnonid
  · exact fun fr hfr => fusionRowsOf_mem _ _ fr hfr

/-- C3 witness: fusing spells_phb (3 rows) and spells_xge (2 rows) gives 5
rows with per-source counts 3 and 2 (the provenance example of the spec). -/
theorem C3_witness :
    ∃ cols rows,
      silverFusionTable (create_fusion_table [tSpellsPhb, tSpellsXge] silverInit
          (pstr "spells") (pstr "spells_") (pstr "fusion_spells")).1
          (pstr "spells", pstr "fusion_spells") = some (cols, rows) ∧
      rows.length = (([tSpellsPhb, tSpellsXge].filter
        (fun u => startsWithStr (pstr "spells_") u.name)).map
        (fun u => u.rows.length)).sum ∧
      (∀ u ∈ [tSpellsPhb, tSpellsXge].filter (fun u => startsWithStr (pstr "spells_") u.name),
        rows.countP (fun fr => fr.source_table == u.name) = u.rows.length) ∧
      (∀ fr ∈ rows, ∃ u ∈ [tSpellsPhb, tSpellsXge].filter
          (fun u => startsWithStr (pstr "spells_") u.name),
        ∃ sr ∈ u.rows, fr.source_table = u.name ∧ fr.original_id = sr.rid) :=
  C3_fusion_provenance [tSpellsPhb, tSpellsXge] silverInit (pstr "spells") (pstr "spells_")
    (pstr "fusion_spells")
    (joinWith ['|'] (sortStrs [tableInfo tSpellsPhb, tableInfo tSpellsXge]))
    (by decide) (by decide) (by decide) (by decide) (by decide) (by decide)

theorem lexLe_total (x y : Str) : lexLe x y = true ∨ lexLe y x = true := by
  induction x generalizing y with
  | nil => exact Or.inl rfl
  | cons a as ih =>
    cases y with
    | nil => exact Or.inr rfl
    | cons b bs =>
      unfold lexLe
      rcases lt_trichotomy a b with h | h | h
      · left
        rw [if_pos h]
      · subst h
        rcases ih bs with h2 | h2
        · left
          rw [if_neg (lt_irrefl a), if_pos rfl]
          exact h2
        · right
          rw [if_neg (lt_irrefl a), if_pos rfl]
          exact h2
      · right
        rw [if_pos h]

theorem lexLe_antisymm (x y : Str) (h1 : lexLe x y = true) (h2 : lexLe y x = true) : x = y := by
  induction x generalizing y with
  | nil =>
    cases y with
    | nil => rfl
    | cons b bs => simp [lexLe] at h2
  | cons a as ih =>
    cases y with
    | nil => simp [lexLe] at h1
    | cons b bs =>
      unfold lexLe at h1 h2
      rcases lt_trichotomy a b with h | h | h
      · rw [if_neg (asymm h), if_neg (ne_of_gt h)] at h2
        exact absurd h2 (by simp)
      · subst h
        rw [if_neg (lt_irrefl a), if_pos rfl] at h1 h2
        rw [ih bs h1 h2]
      · rw [if_neg (asymm h), if_neg (ne_of_gt h)] at h1
        exact absurd h1 (by simp)

theorem lexLe_trans (x y z : Str) (h1 : lexLe x y = true) (h2 : lexLe y z = true) :
    lexLe x z = true := by
  induction x generalizing y z with
  | nil => rfl
  | cons a as ih =>
    cases y with
    | nil => simp [lexLe] at h1
    | cons b bs =>
      cases z with
      | nil => simp [lexLe] at h2
      | cons c cs =>
        unfold lexLe at h1 h2 ⊢
        rcases lt_trichotomy a b with hab | hab | hab
        · rcases lt_trichotomy b c with hbc | hbc | hbc
          · rw [if_pos (lt_trans hab hbc)]
          · subst hbc
            rw [if_pos hab]
          · rw [if_neg (asymm hbc), if_neg (ne_of_gt hbc)] at h2
            exact absurd h2 (by simp)
        · subst hab
          rw [if_neg (lt_irrefl a), if_pos rfl] at h1
          rcases lt_trichotomy a c with hac | hac | hac
          · rw [if_pos hac]
          · subst hac
            rw [if_neg (lt_irrefl a), if_pos rfl] at h2 ⊢
            exact ih bs cs h1 h2
          · rw [if_neg (asymm hac), if_neg (ne_of_gt hac)] at h2
            exact absurd h2 (by simp)
        · rw [if_neg (asymm hab), if_neg (ne_of_gt hab)] at h1
          exact absurd h1 (by simp)

theorem insSorted_perm (x : Str) (l : List Str) : (insSorted x l).Perm (x :: l) := by
  induction l with
  | nil => exact List.Perm.refl _
  | cons y ys ih =>
    unfold insSorted
    split
    · exact List.Perm.refl _
    · exact (List.Perm.cons y ih).trans (List.Perm.swap x y ys)

theorem sortStrs_perm (l : List Str) : (sortStrs l).Perm l := by
  induction l with
  | nil => exact List.Perm.refl _
  | cons x xs ih =>
    exact (insSorted_perm x (sortStrs xs)).trans (List.Perm.cons x ih)

theorem insSorted_pairwise (x : Str) (l : List Str)
    (hl : l.Pairwise (fun a b => lexLe a b = true)) :
    (insSorted x l).Pairwise (fun a b => lexLe a b = true) := by
  induction l with
  | nil => simp [insSorted]
  | cons y ys ih =>
    rw [List.pairwise_cons] at hl
    unfold insSorted
    split
    · rename_i hxy
      rw [List.pairwise_cons]
      refine ⟨?_, List.pairwise_cons.mpr hl⟩
      intro z hz
      rcases List.mem_cons.mp hz with rfl | hz2
      · exact hxy
      · exact lexLe_trans x y z hxy (hl.1 z hz2)
    · rename_i hxy
      have hyx : lexLe y x = true := by
        rcases lexLe_total x y with h | h
        · exact absurd h hxy
        · exact h
      rw [List.pairwise_cons]
      refine ⟨?_, ih hl.2⟩
      intro z hz
      rcases (insSorted_perm x ys).mem_iff.mp hz with hz2
      rcases List.mem_cons.mp hz2 with rfl | hz3
      · exact hyx
      · exact hl.1 z hz3

theorem sortStrs_pairwise (l : List Str) :
    (sortStrs l).Pairwise (fun a b => lexLe a b = true) := by
  induction l with
  | nil => exact List.Pairwise.nil
  | cons x xs ih => exact insSorted_pairwise x (sortStrs xs) ih

instance lexLeAntisymm : IsAntisymm Str (fun a b => lexLe a b = true) :=
  ⟨fun a b => lexLe_antisymm a b⟩

theorem sortStrs_eq_of_perm (l1 l2 : List Str) (h : l1.Perm l2) : sortStrs l1 = sortStrs l2 :=
  List.eq_of_perm_of_sorted
    (((sortStrs_perm l1).trans h).trans (sortStrs_perm l2).symm)
    (sortStrs_pairwise l1) (sortStrs_pairwise l2)

theorem perm_all_eq {α : Type} (p : α → Bool) (l1 l2 : List α) (h : l1.Perm l2) :
    l1.all p = l2.all p := by
  cases h1 : l1.all p with
  | true =>
    rw [List.all_eq_true] at h1
    exact (List.all_eq_true.mpr (fun a ha => h1 a (h.mem_iff.mpr ha))).symm
  | false =>
    rcases List.all_eq_false.mp h1 with ⟨a, ha, hpa⟩
    exact (List.all_eq_false.mpr ⟨a, h.mem_iff.mp ha, hpa⟩).symm

theorem digitChar_toNat (d : Nat) (hd : d < 10) : (digitChar d).toNat = 48 + d := by
  interval_cases d <;> decide

theorem digitChar_ne_colon (d : Nat) (hd : d < 10) : digitChar d ≠ ':' := by
  interval_cases d <;> decide

theorem digitChar_ne_pipe (d : Nat) (hd : d < 10) : digitChar d ≠ '|' := by
  interval_cases d <;> decide

theorem natStrGo_digits (fuel n : Nat) :
    ∀ c ∈ natStrGo fuel n, ∃ d, d < 10 ∧ c = digitChar d := by
  induction fuel generalizing n with
  | zero => intro c hc; simp [natStrGo] at hc
  | succ fuel ih =>
    intro c hc
    unfold natStrGo at hc
    split at hc
    · simp at hc
    · rcases List.mem_append.mp hc with h | h
      · exact ih (n / 10) c h
      · simp only [List.mem_singleton] at h
        exact ⟨n % 10, Nat.mod_lt n (by omega), h⟩

theorem natStr_digits (n : Nat) : ∀ c ∈ natStr n, ∃ d, d < 10 ∧ c = digitChar d := by
  unfold natStr
  split
  · intro c hc
    simp only [pstr, List.mem_singleton] at hc
    exact ⟨0, by omega, by rw [hc]; decide⟩
  · exact natStrGo_digits n n

theorem natStr_colon_free (n : Nat) : ':' ∉ natStr n := by
  intro h
  rcases natStr_digits n ':' h with ⟨d, hd, hc⟩
  exact digitChar_ne_colon d hd hc.symm

theorem natStr_pipe_free (n : Nat) : '|' ∉ natStr n := by
  intro h
  rcases natStr_digits n '|' h with ⟨d, hd, hc⟩
  exact digitChar_ne_pipe d hd hc.symm

theorem natStrGo_val (fuel : Nat) : ∀ n, n ≤ fuel → ∀ a : Nat,
    (natStrGo fuel n).foldl (fun x c => 10 * x + (c.toNat - 48)) a =
      a * 10 ^ (natStrGo fuel n).length + n := by
  induction fuel with
  | zero =>
    intro n hn a
    interval_cases n
    simp [natStrGo]
  | succ fuel ih =>
    intro n hn a
    unfold natStrGo
    split
    · rename_i h0
      subst h0
      simp
    · rename_i h0
      rw [List.foldl_append, List.length_append]
      have hdiv : n / 10 ≤ fuel := by omega
      rw [ih (n / 10) hdiv a]
      simp only [List.foldl_cons, List.foldl_nil, List.length_singleton]
      rw [digitChar_toNat (n % 10) (Nat.mod_lt n (by omega))]
      have : 48 + n % 10 - 48 = n % 10 := by omega
      rw [this, pow_succ]
      have hmod := Nat.div_add_mod n 10
      ring_nf
      omega

theorem natStr_val (n : Nat) :
    (natStr n).foldl (fun x c => 10 * x + (c.toNat - 48)) 0 = n := by
  unfold natStr
  split
  · rename_i h0
    subst h0
    decide
  · rw [natStrGo_val n n (le_refl n) 0]
    simp

theorem natStr_inj (m n : Nat) (h : natStr m = natStr n) : m = n := by
  have hm := natStr_val m
  rw [h, natStr_val n] at hm
  exact hm.symm

theorem append_sep_split (c : Char) (x : Str) : ∀ (y u v : Str), c ∉ x → c ∉ y →
    x ++ c :: u = y ++ c :: v → x = y ∧ u = v := by
  induction x with
  | nil =>
    intro y u v hx hy h
    cases y with
    | nil => simpa using h
    | cons b bs =>
      rw [List.nil_append, List.cons_append] at h
      have hb := (List.cons.injEq _ _ _ _).mp h
      refine absurd ?_ hy
      rw [hb.1]
      exact List.mem_cons_self b bs
  | cons a as ih =>
    intro y u v hx hy h
    cases y with
    | nil =>
      rw [List.cons_append, List.nil_append] at h
      have ha := (List.cons.injEq _ _ _ _).mp h
      refine absurd ?_ hx
      rw [ha.1]
      exact List.mem_cons_self c as
    | cons b bs =>
      rw [List.cons_append, List.cons_append] at h
      have hab := (List.cons.injEq _ _ _ _).mp h
      rcases ih bs u v (fun hm => hx (List.mem_cons_of_mem a hm))
        (fun hm => hy (List.mem_cons_of_mem b hm)) hab.2 with ⟨h1, h2⟩
      exact ⟨by rw [hab.1, h1], h2⟩

theorem joinWith_sep_inj (c : Char) : ∀ (l1 l2 : List Str),
    (∀ s ∈ l1, c ∉ s) → (∀ s ∈ l2, c ∉ s) → l1.length = l2.length →
    joinWith [c] l1 = joinWith [c] l2 → l1 = l2 := by
  intro l1
  induction l1 with
  | nil =>
    intro l2 _ _ hlen _
    cases l2 with
    | nil => rfl
    | cons y ys => simp at hlen
  | cons x xs ih =>
    intro l2 h1 h2 hlen hj
    cases l2 with
    | nil => simp at hlen
    | cons y ys =>
      cases xs with
      | nil =>
        cases ys with
        | nil =>
          unfold joinWith at hj
          rw [hj]
        | cons y2 ys2 => simp at hlen
      | cons x2 xs2 =>
        cases ys with
        | nil => simp at hlen
        | cons y2 ys2 =>
          have hx : joinWith [c] (x :: x2 :: xs2) = x ++ c :: joinWith [c] (x2 :: xs2) := by
            show x ++ [c] ++ joinWith [c] (x2 :: xs2) = _
            rw [List.append_assoc, List.singleton_append]
          have hy : joinWith [c] (y :: y2 :: ys2) = y ++ c :: joinWith [c] (y2 :: ys2) := by
            show y ++ [c] ++ joinWith [c] (y2 :: ys2) = _
            rw [List.append_assoc, List.singleton_append]
          rw [hx, hy] at hj
          rcases append_sep_split c x _ _ _ (h1 x (by simp)) (h2 y (by simp)) hj with ⟨hxy, hrest⟩
          have := ih (y2 :: ys2) (fun s hs => h1 s (List.mem_cons_of_mem x hs))
            (fun s hs => h2 s (List.mem_cons_of_mem y hs)) (by simpa using hlen) hrest
          rw [hxy, this]

theorem mem_joinWith (sep : Str) : ∀ (l : List Str) (ch : Char), ch ∈ joinWith sep l →
    ch ∈ sep ∨ ∃ s ∈ l, ch ∈ s := by
  intro l
  induction l with
  | nil => intro ch h; simp [joinWith] at h
  | cons x xs ih =>
    intro ch h
    cases xs with
    | nil =>
      right
      exact ⟨x, by simp, h⟩
    | cons y ys =>
      unfold joinWith at h
      rcases List.mem_append.mp h with h2 | h2
      · rcases List.mem_append.mp h2 with h3 | h3
        · exact Or.inr ⟨x, by simp, h3⟩
        · exact Or.inl h3
      · rcases ih ch h2 with h3 | ⟨s, hs, hcs⟩
        · exact Or.inl h3
        · exact Or.inr ⟨s, List.mem_cons_of_mem x hs, hcs⟩

theorem pyReprPair_pipe_free (p : Str × Str) (h1 : '|' ∉ p.1) (h2 : '|' ∉ p.2) :
    '|' ∉ pyReprPair p := by
  intro h
  unfold pyReprPair at h
  rcases List.mem_append.mp h with h3 | h3
  · rcases List.mem_append.mp h3 with h4 | h4
    · rcases List.mem_cons.mp h4 with h5 | h5
      · exact absurd h5 (by decide)
      rcases List.mem_cons.mp h5 with h6 | h6
      · exact absurd h6 (by decide)
      · exact h1 h6
    · rcases List.mem_cons.mp h4 with h5 | h5
      · exact absurd h5 (by decide)
      rcases List.mem_cons.mp h5 with h6 | h6
      · exact absurd h6 (by decide)
      rcases List.mem_cons.mp h6 with h7 | h7
      · exact absurd h7 (by decide)
      rcases List.mem_cons.mp h7 with h8 | h8
      · exact absurd h8 (by decide)
      · exact h2 h8
  · rcases List.mem_cons.mp h3 with h4 | h4
    · exact absurd h4 (by decide)
    · rcases List.mem_singleton.mp h4 with h5
      exact absurd h5 (by decide)

theorem pyReprCols_pipe_free (cols : List (Str × Str))
    (h : ∀ p ∈ cols, '|' ∉ p.1 ∧ '|' ∉ p.2) : '|' ∉ pyReprCols cols := by
  intro hmem
  unfold pyReprCols at hmem
  rcases List.mem_append.mp hmem with h2 | h2
  · rcases List.mem_cons.mp h2 with h3 | h3
    · exact absurd h3 (by decide)
    · rcases mem_joinWith _ _ _ h3 with h4 | ⟨s, hs, hcs⟩
      · exact absurd h4 (by decide)
      · rcases List.mem_map.mp hs with ⟨p, hp, hps⟩
        subst hps
        exact pyReprPair_pipe_free p (h p hp).1 (h p hp).2 hcs
  · rcases List.mem_singleton.mp h2 with h3
    exact absurd h3 (by decide)

theorem tableInfo_pipe_free (t : SrcTable) (hname : '|' ∉ t.name)
    (hcols : ∀ p ∈ t.columns, '|' ∉ p.1 ∧ '|' ∉ p.2) : '|' ∉ tableInfo t := by
  intro h
  unfold tableInfo at h
  rcases List.mem_append.mp h with h2 | h2
  · rcases List.mem_append.mp h2 with h3 | h3
    · exact hname h3
    · rcases List.mem_cons.mp h3 with h4 | h4
      · exact absurd h4 (by decide)
      · exact natStr_pipe_free _ h4
  · rcases List.mem_cons.mp h2 with h3 | h3
    · exact absurd h3 (by decide)
    · exact pyReprCols_pipe_free t.columns hcols h3


theorem tableInfo_decomp (t : SrcTable) :
    tableInfo t = t.name ++ ':' :: (natStr t.rows.length ++ ':' :: pyReprCols t.columns) := by
  unfold tableInfo
  rw [List.append_assoc, List.cons_append]

theorem tableInfo_inj (u t : SrcTable) (hu : ':' ∉ u.name) (ht : ':' ∉ t.name)
    (h : tableInfo u = tableInfo t) : u.name = t.name ∧ u.rows.length = t.rows.length := by
  rw [tableInfo_decomp, tableInfo_decomp] at h
  rcases append_sep_split ':' u.name t.name _ _ hu ht h with ⟨hn, hr⟩
  rcases append_sep_split ':' _ _ _ _ (natStr_colon_free _) (natStr_colon_free _) hr with ⟨hl, _⟩
  exact ⟨hn, natStr_inj _ _ hl⟩

theorem bumpTable_all_accessible (n : Str) (r : SrcRow) (ts : List SrcTable) :
    (bumpTable n r ts).all (fun t => t.accessible) = ts.all (fun t => t.accessible) := by
  unfold bumpTable
  rw [List.all_map]
  have hfe : ((fun t : SrcTable => t.accessible) ∘
      (fun u => if u.name = n then { u with rows := u.rows ++ [r] } else u))
      = (fun t : SrcTable => t.accessible) := by
    funext u
    by_cases h : u.name = n <;> simp [h, Function.comp]
  rw [hfe]

theorem all_fst_map_pair (ts : List SrcTable) :
    ((ts.map (fun u => (u.accessible, tableInfo u))).all (fun p => p.1))
      = ts.all (fun t => t.accessible) := by
  induction ts with
  | nil => rfl
  | cons x xs ih => simp [List.all_cons, ih]

theorem calculate_tables_hash_perm (ts1 ts2 : List SrcTable)
    (h : (ts1.map (fun u => (u.accessible, tableInfo u))).Perm
         (ts2.map (fun u => (u.accessible, tableInfo u)))) :
    calculate_tables_hash ts1 = calculate_tables_hash ts2 := by
  have hacc : ts1.all (fun t => t.accessible) = ts2.all (fun t => t.accessible) := by
    have hh := perm_all_eq (fun p => p.1) _ _ h
    rw [all_fst_map_pair, all_fst_map_pair] at hh
    exact hh
  have hinfo : (ts1.map tableInfo).Perm (ts2.map tableInfo) := by
    have hh := h.map (fun p => p.2)
    rw [List.map_map, List.map_map] at hh
    exact hh
  unfold calculate_tables_hash
  rw [hacc, sortStrs_eq_of_perm _ _ hinfo]

theorem calculate_tables_hash_bump_ne (ts : List SrcTable) (t : SrcTable) (r : SrcRow)
    (ht : t ∈ ts) (hnodup : (ts.map SrcTable.name).Nodup)
    (hfree : ∀ u ∈ ts, ':' ∉ u.name ∧ '|' ∉ u.name ∧ ∀ p ∈ u.columns, '|' ∉ p.1 ∧ '|' ∉ p.2)
    (h1 h2 : Str)
    (hh1 : calculate_tables_hash ts = some h1)
    (hh2 : calculate_tables_hash (bumpTable t.name r ts) = some h2) :
    h1 ≠ h2 := by
  intro heq
  unfold calculate_tables_hash at hh1 hh2
  by_cases hacc : ts.all (fun u => u.accessible) = true
  case neg =>
    rw [if_neg hacc] at hh1
    exact Option.noConfusion hh1
  rw [if_pos hacc] at hh1
  rw [if_pos (by rw [bumpTable_all_accessible]; exact hacc)] at hh2
  have e1 := Option.some.inj hh1
  have e2 := Option.some.inj hh2
  rw [← e1, ← e2] at heq
  have hlen : (sortStrs (ts.map tableInfo)).length
      = (sortStrs ((bumpTable t.name r ts).map tableInfo)).length := by
    rw [(sortStrs_perm _).length_eq, (sortStrs_perm _).length_eq]
    unfold bumpTable
    rw [List.length_map, List.length_map, List.length_map]
  have hf1 : ∀ s ∈ sortStrs (ts.map tableInfo), '|' ∉ s := by
    intro s hs
    rcases List.mem_map.mp ((sortStrs_perm _).mem_iff.mp hs) with ⟨u, hu, hus⟩
    rcases hfree u hu with ⟨_, hn, hc⟩
    exact hus ▸ tableInfo_pipe_free u hn hc
  have hf2 : ∀ s ∈ sortStrs ((bumpTable t.name r ts).map tableInfo), '|' ∉ s := by
    intro s hs
    have hs2 := (sortStrs_perm _).mem_iff.mp hs
    rw [bumpTable, List.map_map] at hs2
    rcases List.mem_map.mp hs2 with ⟨u, hu, hus⟩
    rcases hfree u hu with ⟨_, hn, hc⟩
    by_cases hun : u.name = t.name
    · have : (Function.comp tableInfo
          (fun u => if u.name = t.name then { u with rows := u.rows ++ [r] } else u)) u
          = tableInfo { u with rows := u.rows ++ [r] } := by
        simp [Function.comp, hun]
      rw [this] at hus
      exact hus ▸ tableInfo_pipe_free _ hn hc
    · have : (Function.comp tableInfo
          (fun u => if u.name = t.name then { u with rows := u.rows ++ [r] } else u)) u
          = tableInfo u := by
        simp [Function.comp, hun]
      rw [this] at hus
      exact hus ▸ tableInfo_pipe_free u hn hc
  have hsorted := joinWith_sep_inj '|' _ _ hf1 hf2 hlen heq
  have hp : (ts.map tableInfo).Perm ((bumpTable t.name r ts).map tableInfo) :=
    ((sortStrs_perm _).symm.trans (hsorted ▸ sortStrs_perm _))
  have hmem1 : tableInfo t ∈ ts.map tableInfo := List.mem_map_of_mem _ ht
  have hmem2 := hp.mem_iff.mp hmem1
  rw [bumpTable, List.map_map] at hmem2
  rcases List.mem_map.mp hmem2 with ⟨u, hu, hinfo⟩
  rcases hfree u hu with ⟨hun, _, _⟩
  rcases hfree t ht with ⟨htn, _, _⟩
  by_cases hn : u.name = t.name
  · have hut : u = t := List.inj_on_of_nodup_map hnodup hu ht hn
    subst hut
    have hred : (Function.comp tableInfo
        (fun v => if v.name = u.name then { v with rows := v.rows ++ [r] } else v)) u
        = tableInfo { u with rows := u.rows ++ [r] } := by
      simp [Function.comp]
    rw [hred] at hinfo
    have hlens := (tableInfo_inj { u with rows := u.rows ++ [r] } u hun hun hinfo).2
    simp at hlens
  · have hred : (Function.comp tableInfo
        (fun v => if v.name = t.name then { v with rows := v.rows ++ [r] } else v)) u
        = tableInfo u := by
      simp [Function.comp, hn]
    rw [hred] at hinfo
    exact hn (tableInfo_inj u t hun htn hinfo).1

theorem needed_of_hash_ne (ledger : List TransEntry) (schema target ttype h2 : Str)
    (e : TransEntry) (hfind : transFind ledger schema target ttype = some e)
    (hne : e.source_hash ≠ h2) :
    is_transformation_needed ledger schema target ttype h2 = true := by
  have hb : (e.source_hash == h2) = false := beq_eq_false_iff_ne.mpr hne
  unfold is_transformation_needed
  rw [hfind]
  show (!(e.status == pstr "success" && e.source_hash == h2)) = true
  rw [hb, Bool.and_false, Bool.not_false]

/-- C5: the transformation fingerprint computed by `calculate_tables_hash` is
unchanged when the source tables are re-enumerated in any order with the same
accessibility, row counts and column definitions (so a matching `success`
ledger entry still makes `is_transformation_needed` answer `false`, the skip);
and appending one row to any one source table changes the fingerprint, making
`is_transformation_needed` answer `true` against that same ledger entry, so
the next run re-runs the fusion instead of skipping. Proved for table sets
with pairwise-distinct names whose names avoid the `:`/`|` separator
characters and whose column names and types avoid `|` (true of every
sanitised bronze identifier). -/
theorem C5_fingerprint (ts1 ts2 : List SrcTable) (t : SrcTable) (r : SrcRow)
    (ledger : List TransEntry) (schema target ttype : Str) (e : TransEntry)
    (hperm : (ts1.map (fun u => (u.accessible, tableInfo u))).Perm
             (ts2.map (fun u => (u.accessible, tableInfo u))))
    (ht : t ∈ ts1) (hnodup : (ts1.map SrcTable.name).Nodup)
    (hfree : ∀ u ∈ ts1, ':' ∉ u.name ∧ '|' ∉ u.name ∧ ∀ p ∈ u.columns, '|' ∉ p.1 ∧ '|' ∉ p.2)
    (h1 h2 : Str)
    (hh1 : calculate_tables_hash ts1 = some h1)
    (hh2 : calculate_tables_hash (bumpTable t.name r ts1) = some h2)
    (hfind : transFind ledger schema target ttype = some e)
    (hsucc : e.status = pstr "success") (hhash : e.source_hash = h1) :
    calculate_tables_hash ts2 = some h1 ∧
    is_transformation_needed ledger schema target ttype h1 = false ∧
    h1 ≠ h2 ∧
    is_transformation_needed ledger schema target ttype h2 = true := by
  have hinv := calculate_tables_hash_perm ts1 ts2 hperm
  have hne := calculate_tables_hash_bump_ne ts1 t r ht hnodup hfree h1 h2 hh1 hh2
  refine ⟨hinv.symm.trans hh1, ?_, hne, needed_of_hash_ne _ _ _ _ _ e hfind (by rw [hhash]; exact hne)⟩
  unfold is_transformation_needed
  rw [hfind]
  show (!(e.status == pstr "success" && e.source_hash == h1)) = false
  rw [hsucc, hhash]
  simp

theorem C5_fingerprint_witness :
    calculate_tables_hash [tSpellsXge, tSpellsPhb]
      = some (joinWith ['|'] (sortStrs ([tSpellsPhb, tSpellsXge].map tableInfo))) ∧
    is_transformation_needed [c5Entry] (pstr "spells") (pstr "fusion_spells") (pstr "fusion")
      (joinWith ['|'] (sortStrs ([tSpellsPhb, tSpellsXge].map tableInfo))) = false ∧
    joinWith ['|'] (sortStrs ([tSpellsPhb, tSpellsXge].map tableInfo))
      ≠ joinWith ['|']
          (sortStrs ((bumpTable tSpellsPhb.name (mkNameRow 4) [tSpellsPhb, tSpellsXge]).map tableInfo)) ∧
    is_transformation_needed [c5Entry] (pstr "spells") (pstr "fusion_spells") (pstr "fusion")
      (joinWith ['|']
        (sortStrs ((bumpTable tSpellsPhb.name (mkNameRow 4) [tSpellsPhb, tSpellsXge]).map tableInfo)))
      = true :=
  C5_fingerprint [tSpellsPhb, tSpellsXge] [tSpellsXge, tSpellsPhb] tSpellsPhb (mkNameRow 4)
    [c5Entry] (pstr "spells") (pstr "fusion_spells") (pstr "fusion") c5Entry
    (by decide) (by decide) (by decide) (by decide)
    (joinWith ['|'] (sortStrs ([tSpellsPhb, tSpellsXge].map tableInfo)))
    (joinWith ['|']
      (sortStrs ((bumpTable tSpellsPhb.name (mkNameRow 4) [tSpellsPhb, tSpellsXge]).map tableInfo)))
    (by decide) (by decide) (by decide) (by decide) (by decide)
